import Mathlib

/-!
Shallow embedding of the Structured Document Reconstruction Engine of the
llm-file-optimiser repository: the table region detector and transcoder
(`tableConverter.js`, `fileExtractor.js`) and the markup parser and
multi-format serializer (`fileWriter.js`), together with theorems settling
the specification claims.

JavaScript strings are modelled as Lean `String` / `List Char`; the
regex-driven scans of the source are reimplemented as explicit recursive
scanners with the same match semantics (leftmost match, ordered
alternation, lazy/greedy quantifiers as in the source patterns).  Where a
scanner consumes a variable number of characters per step, it is written
with an explicit fuel argument (always called with fuel = input length,
which is sufficient since every step consumes at least one character), so
that every definition is structurally recursive and kernel-computable.
-/

namespace FileOpt

/-- ASCII approximation of the JavaScript regex class `\s` (only ASCII
whitespace occurs in the paths the claims exercise). -/
def isJsWs (c : Char) : Bool :=
  c = ' ' || c = '\t' || c = '\n' || c = '\r' || c = '\x0b' || c = '\x0c'

/-- JavaScript `String.prototype.trim` on a character list. -/
def jsTrimL (l : List Char) : List Char :=
  ((l.dropWhile isJsWs).reverse.dropWhile isJsWs).reverse

/-- JavaScript `String.prototype.trim`. -/
def jsTrim (s : String) : String := ⟨jsTrimL s.data⟩

/-- JavaScript `text.split('\n')` on a character list. -/
def splitNl : List Char → List (List Char)
  | [] => [[]]
  | c :: rest =>
    if c = '\n' then [] :: splitNl rest
    else
      match splitNl rest with
      | f :: fs => (c :: f) :: fs
      | [] => [[c]]

/-- JavaScript `array.join('\n')` on character lists. -/
def joinNl : List (List Char) → List Char
  | [] => []
  | [l] => l
  | l :: ls => l ++ '\n' :: joinNl ls

theorem splitNl_ne_nil (cs : List Char) : splitNl cs ≠ [] := by
  cases cs with
  | nil => simp [splitNl]
  | cons c rest =>
    simp only [splitNl]
    split
    · simp
    · split <;> simp_all

theorem joinNl_splitNl (cs : List Char) : joinNl (splitNl cs) = cs := by
  induction cs with
  | nil => rfl
  | cons c rest ih =>
    simp only [splitNl]
    split
    · rename_i hc
      have h1 : splitNl rest ≠ [] := splitNl_ne_nil rest
      cases h : splitNl rest with
      | nil => exact absurd h h1
      | cons f fs =>
        rw [h] at ih
        simp only [joinNl]
        subst hc
        simpa using ih
    · cases h : splitNl rest with
      | nil => exact absurd h (splitNl_ne_nil rest)
      | cons f fs =>
        rw [h] at ih
        cases fs with
        | nil => simpa [joinNl] using ih
        | cons g gs => simpa [joinNl] using ih

/-- Detection of three consecutive characters satisfying `p`; used for the
JavaScript test `/\s{3,}/.test(line)` with `p = isJsWs`. -/
def hasRun3 (p : Char → Bool) : List Char → Bool
  | a :: b :: c :: rest => (p a && p b && p c) || hasRun3 p (b :: c :: rest)
  | _ => false

/-- JavaScript `line.split(re)` where `re` matches maximal runs of at least
three consecutive characters satisfying `p` (empty fields are kept, exactly
as `String.prototype.split` keeps them).  `fld` is the current field and
`pend` the pending run, both reversed. -/
def splitRun3Go (p : Char → Bool) : List Char → List Char → List Char → List (List Char)
  | [], fld, pend =>
    if 3 ≤ pend.length then [fld.reverse, []]
    else [(pend ++ fld).reverse]
  | c :: rest, fld, pend =>
    if p c then splitRun3Go p rest fld (c :: pend)
    else if 3 ≤ pend.length then fld.reverse :: splitRun3Go p rest [c] []
    else splitRun3Go p rest (c :: (pend ++ fld)) []

/-- JavaScript `line.split(/\s{3,}/)` (with `\s` as `isJsWs`). -/
def splitWs3 (l : List Char) : List (List Char) := splitRun3Go isJsWs l [] []

/-- Number of maximal runs of at least three consecutive characters
satisfying `p`; `pend` is the length of the pending run. -/
def run3Count (p : Char → Bool) : List Char → Nat → Nat
  | [], pend => if 3 ≤ pend then 1 else 0
  | c :: rest, pend =>
    if p c then run3Count p rest (pend + 1)
    else (if 3 ≤ pend then 1 else 0) + run3Count p rest 0

/-- Tabular-line heuristics shared by `FileExtractor.markTableSections` and
`TableConverter.detectTextTables`: at least two tabs, or at least two
pipes, or `/\s{3,}/.test(line) && line.split(/\s{3,}/).length >= 3`. -/
def isTabularL (l : List Char) : Bool :=
  decide (2 ≤ l.count '\t') || decide (2 ≤ l.count '|') ||
    (hasRun3 isJsWs l && decide (3 ≤ (splitWs3 l).length))

/-- Main loop of `FileExtractor.markTableSections`; the arguments mirror
the source variables: remaining `lines`, `inTable`, `tableLines`,
`result`. -/
def markGo : List (List Char) → Bool → List (List Char) → List (List Char) → List (List Char)
  | [], inTable, tableLines, result =>
    if inTable && decide (2 ≤ tableLines.length) then
      result ++ tableLines ++ ["[TABLE END]\n".data]
    else result
  | line :: rest, inTable, tableLines, result =>
    if isTabularL line then
      if !inTable then markGo rest true [line] (result ++ ["\n[TABLE START]".data])
      else markGo rest true (tableLines ++ [line]) result
    else if inTable && decide ((jsTrimL line).length = 0) then
      markGo rest true (tableLines ++ [line]) result
    else if inTable then
      if 2 ≤ tableLines.length then
        markGo rest false [] (result ++ tableLines ++ ["[TABLE END]\n".data, line])
      else
        markGo rest false [] (result ++ tableLines ++ [line])
    else markGo rest false [] (result ++ [line])

/-- `FileExtractor.markTableSections`. -/
def markTableSections (text : String) : String :=
  ⟨joinNl (markGo (splitNl text.data) false [] [])⟩

/-- Entry of the array returned by `TableConverter.detectTextTables`. -/
structure TextTablePattern where
  startLine : Nat
  endLine : Nat
  content : String
deriving DecidableEq

/-- Main loop of `TableConverter.detectTextTables`; `total` is
`lines.length`, `i` the loop index, `cur` the `currentTable` accumulator of
trimmed lines. -/
def dttGo (total : Nat) : List String → Nat → Bool → List String → List TextTablePattern
  | [], _, inT, cur =>
    if inT && decide (2 ≤ cur.length) then
      [⟨total - cur.length, total - 1, String.intercalate "\n" cur⟩]
    else []
  | l :: rest, i, inT, cur =>
    let line := jsTrim l
    if isTabularL line.data then
      if !inT then dttGo total rest (i + 1) true [line]
      else dttGo total rest (i + 1) true (cur ++ [line])
    else if inT && decide (line.length = 0) then dttGo total rest (i + 1) inT cur
    else if inT then
      (if 2 ≤ cur.length then [⟨i - cur.length, i - 1, String.intercalate "\n" cur⟩] else [])
        ++ dttGo total rest (i + 1) false []
    else dttGo total rest (i + 1) false cur

/-- `TableConverter.detectTextTables`. -/
def detectTextTables (text : String) : List TextTablePattern :=
  let lines := (splitNl text.data).map (fun l => String.mk l)
  dttGo lines.length lines 0 false []

theorem markGo_no_tab (lines : List (List Char))
    (h : ∀ l ∈ lines, isTabularL l = false) :
    ∀ result, markGo lines false [] result = result ++ lines := by
  induction lines with
  | nil => intro result; simp [markGo]
  | cons line rest ih =>
    intro result
    have hline : isTabularL line = false := h line (by simp)
    have hrest : ∀ l ∈ rest, isTabularL l = false := fun l hl => h l (by simp [hl])
    simp only [markGo, hline]
    rw [ih hrest (result ++ [line])]
    simp

theorem dttGo_no_tab (total : Nat) (lines : List String)
    (h : ∀ l ∈ lines, isTabularL (jsTrim l).data = false) :
    ∀ i, dttGo total lines i false [] = [] := by
  induction lines with
  | nil => intro i; simp [dttGo]
  | cons l rest ih =>
    intro i
    have hl : isTabularL (jsTrim l).data = false := h l (by simp)
    have hrest : ∀ x ∈ rest, isTabularL (jsTrim x).data = false :=
      fun x hx => h x (by simp [hx])
    simp only [dttGo, hl]
    exact ih hrest (i + 1)

/-- C10: on input where no line satisfies the tabular-line heuristics,
`markTableSections` returns its input unchanged: no sentinel markers are
inserted and no line is altered, reordered or removed. -/
theorem c10_mark_identity_on_table_free (text : String)
    (h : ∀ l ∈ splitNl text.data, isTabularL l = false) :
    markTableSections text = text := by
  unfold markTableSections
  rw [markGo_no_tab _ h []]
  simp only [List.nil_append]
  rw [joinNl_splitNl]

/-- Witness for C10 at the concrete table-free input `"hello\nworld"`. -/
theorem c10_mark_identity_witness :
    markTableSections "hello\nworld" = "hello\nworld" :=
  c10_mark_identity_on_table_free "hello\nworld" (by decide)

/-- Tabular-line predicate as claim C5 words it: ≥2 tabs, or ≥2 pipes, or
splitting on runs of ≥3 consecutive SPACE characters yields ≥3 NON-EMPTY
fields.  Stated from the claim only, to compare with `isTabularL`. -/
def claimTabularC5 (l : List Char) : Bool :=
  decide (2 ≤ l.count '\t') || decide (2 ≤ l.count '|') ||
    decide (3 ≤ ((splitRun3Go (fun c => c = ' ') l [] []).filter (fun f => f ≠ [])).length)

/-- Counterexample for C5: the line `"   a   "` (three spaces, `a`, three
spaces) is classified tabular by the code — `split(/\s{3,}/)` yields the
three fields `["", "a", ""]` and empty fields are counted — but under the
claim's "≥3 non-empty fields" reading it is not tabular. -/
theorem c5_counterexample :
    isTabularL "   a   ".data = true ∧ claimTabularC5 "   a   ".data = false := by
  constructor <;> decide

theorem length_splitRun3Go (p : Char → Bool) (l : List Char) :
    ∀ fld pend, (splitRun3Go p l fld pend).length = run3Count p l pend.length + 1 := by
  induction l with
  | nil =>
    intro fld pend
    simp only [splitRun3Go, run3Count]
    split <;> simp
  | cons c rest ih =>
    intro fld pend
    cases hc : p c with
    | true =>
      simp only [splitRun3Go, run3Count, hc, if_true]
      simpa using ih fld (c :: pend)
    | false =>
      simp only [splitRun3Go, run3Count, hc, Bool.false_eq_true, if_false]
      by_cases h3 : 3 ≤ pend.length
      · rw [if_pos h3, if_pos h3]
        simp only [List.length_cons]
        rw [ih [c] []]
        simp only [List.length_nil]
        omega
      · rw [if_neg h3, if_neg h3]
        rw [ih (c :: (pend ++ fld)) []]
        simp

theorem hasRun3_of_takeWhile (p : Char → Bool) (l : List Char)
    (h : 3 ≤ (l.takeWhile p).length) : hasRun3 p l = true := by
  match l with
  | [] => simp [List.takeWhile] at h
  | [a] =>
    by_cases ha : p a <;> simp [List.takeWhile, ha] at h
  | [a, b] =>
    by_cases ha : p a <;> by_cases hb : p b <;>
      simp [List.takeWhile, ha, hb] at h
  | a :: b :: c :: rest =>
    by_cases ha : p a
    · by_cases hb : p b
      · by_cases hc : p c
        · simp [hasRun3, ha, hb, hc]
        · simp [List.takeWhile, ha, hb, hc] at h
      · simp [List.takeWhile, ha, hb] at h
    · simp [List.takeWhile, ha] at h

theorem run3Count_of_hasRun3_false (p : Char → Bool) (l : List Char)
    (h : hasRun3 p l = false) :
    ∀ pend, run3Count p l pend = if 3 ≤ pend + (l.takeWhile p).length then 1 else 0 := by
  induction l with
  | nil => intro pend; simp [run3Count, List.takeWhile]
  | cons c rest ih =>
    intro pend
    have hrest : hasRun3 p rest = false := by
      match rest with
      | [] => rfl
      | [x] => rfl
      | x :: y :: rs =>
        by_contra hne
        have ht : hasRun3 p (x :: y :: rs) = true := by
          cases hh : hasRun3 p (x :: y :: rs)
          · exact absurd hh hne
          · rfl
        simp only [hasRun3, ht, Bool.or_true] at h
        simp at h
    cases hc : p c with
    | true =>
      simp only [run3Count, hc, if_true]
      rw [ih hrest (pend + 1)]
      have htw : (c :: rest).takeWhile p = c :: rest.takeWhile p := by
        simp [List.takeWhile, hc]
      rw [htw]
      simp only [List.length_cons]
      have harith : pend + 1 + (rest.takeWhile p).length
          = pend + ((rest.takeWhile p).length + 1) := by omega
      rw [harith]
    | false =>
      have hlt : (rest.takeWhile p).length < 3 := by
        by_contra h3
        have ht := hasRun3_of_takeWhile p rest (by omega)
        rw [ht] at hrest
        simp at hrest
      simp only [run3Count, hc, Bool.false_eq_true, if_false]
      rw [ih hrest 0]
      have h0 : ¬ 3 ≤ 0 + (rest.takeWhile p).length := by omega
      rw [if_neg h0]
      have htw : (c :: rest).takeWhile p = [] := by
        simp [List.takeWhile, hc]
      rw [htw]
      simp

theorem run3Count_pos_hasRun3 (p : Char → Bool) (l : List Char)
    (h : 1 ≤ run3Count p l 0) : hasRun3 p l = true := by
  cases hb : hasRun3 p l with
  | true => rfl
  | false =>
    rw [run3Count_of_hasRun3_false p l hb 0] at h
    by_cases h3 : 3 ≤ 0 + (l.takeWhile p).length
    · have ht := hasRun3_of_takeWhile p l (by omega)
      rw [ht] at hb
      simp at hb
    · rw [if_neg h3] at h
      omega

/-- C5 as amended: a line is tabular iff it has ≥2 tabs, or ≥2 pipes, or it
contains at least TWO maximal runs of ≥3 consecutive WHITESPACE characters
(equivalently, `split(/\s{3,}/)` yields ≥3 fields, empty fields counted —
the code counts empty fields, and splits on whitespace, not only spaces). -/
theorem c5_amended_tabular_iff (line : String) :
    isTabularL line.data = true ↔
      2 ≤ line.data.count '\t' ∨ 2 ≤ line.data.count '|' ∨
        2 ≤ run3Count isJsWs line.data 0 := by
  have hlen : (splitWs3 line.data).length = run3Count isJsWs line.data 0 + 1 := by
    simpa using length_splitRun3Go isJsWs line.data [] []
  simp only [isTabularL, Bool.or_eq_true, decide_eq_true_eq, Bool.and_eq_true]
  constructor
  · rintro ((h | h) | ⟨hrun, h3⟩)
    · exact Or.inl h
    · exact Or.inr (Or.inl h)
    · exact Or.inr (Or.inr (by omega))
  · rintro (h | h | h)
    · exact Or.inl (Or.inl h)
    · exact Or.inl (Or.inr h)
    · exact Or.inr ⟨run3Count_pos_hasRun3 isJsWs line.data (by omega), by omega⟩

/-- Evaluation of the C2 failing inputs: at end-of-input the code drops a
single accumulated tabular line entirely while leaving a dangling
`[TABLE START]` sentinel; at a mid-stream false-positive closure it
re-emits the lines but also leaves the already-pushed sentinel. -/
theorem c2_code_bug_eval :
    markTableSections "x\na\tb\tc" = "x\n\n[TABLE START]" ∧
      markTableSections "a\tb\tc\ny\nz" = "\n[TABLE START]\na\tb\tc\ny\nz" := by
  constructor <;> decide

/-- JavaScript `array.join(sep)` on character lists. -/
def joinSep (sep : List Char) : List (List Char) → List Char
  | [] => []
  | [l] => l
  | l :: ls => l ++ sep ++ joinSep sep ls

/-- Decimal digits of `n` (model of the template interpolation
`${index + 1}`); the fuel argument makes the division recursion
structural. -/
def natStrGo : Nat → Nat → List Char
  | 0, _ => []
  | fuel + 1, n =>
    if n < 10 then [Char.ofNat (48 + n)]
    else natStrGo fuel (n / 10) ++ [Char.ofNat (48 + n % 10)]

/-- Decimal rendition of a natural number. -/
def natStr (n : Nat) : String := ⟨natStrGo (n + 1) n⟩

/-- Sum of the cell lengths of a row
(`row.reduce((sum, cell) => sum + cell.length, 0)`). -/
def cellSum (row : List String) : Nat := (row.map String.length).sum

/-- JavaScript `cell.match(/[.!?]$/)` as a Boolean. -/
def endsPunct (cell : String) : Bool :=
  match cell.data.getLast? with
  | some c => c = '.' || c = '!' || c = '?'
  | none => false

/-- `TableConverter.detectHeader`.  The floating-point comparison
`firstRowAvgLength < secondRowAvgLength * 0.7` is modelled exactly over the
rationals by cross-multiplication (`10·sum₀·len₁ < 7·sum₁·len₀`); for
zero-length rows both sides give `false`, as the `NaN` comparison does in
JavaScript. -/
def detectHeader (rows : List (List String)) : Bool :=
  match rows with
  | [] => false
  | firstRow :: restRows =>
    let cross :=
      match restRows with
      | secondRow :: _ =>
        decide (10 * cellSum firstRow * secondRow.length
          < 7 * cellSum secondRow * firstRow.length)
      | [] => false
    if cross then true
    else firstRow.all (fun cell => decide (cell.length < 50) && !endsPunct cell)

/-- `TableConverter.getTableTitle`. -/
def getTableTitle (headerRow : List String) : String :=
  let title := String.mk (joinSep ", ".data
    ((headerRow.filter (fun cell => decide (jsTrim cell ≠ ""))).map String.data))
  if 50 < title.length then "Data Table" else title

/-- Label of cell `i`: `headerRow[cellIndex] || 'Column ' + (cellIndex+1)`
(JavaScript falls back both when the entry is missing and when it is the
empty string, which is falsy). -/
def labelFor (headerRow : List String) (i : Nat) : String :=
  let l := headerRow.getD i ""
  if l = "" then "Column " ++ natStr (i + 1) else l

/-- The `label: value` strings of one data row in the header path of
`TableConverter.convertTableToList`, before the blank filter. -/
def headerItemsGo (hr : List String) : List String → Nat → List String
  | [], _ => []
  | cell :: rest, i => (labelFor hr i ++ ": " ++ cell) :: headerItemsGo hr rest (i + 1)

/-- One data row's items in the header path, keeping those whose trim is
non-blank (`.filter(item => item.trim())`). -/
def headerItems (hr row : List String) : List String :=
  (headerItemsGo hr row 0).filter (fun it => decide (jsTrim it ≠ ""))

/-- The `items` array computed for one data row: `label: value` pairs
filtered on non-blank trim in the header path, non-blank cells
otherwise. -/
def rowItems (headerRow : Option (List String)) (row : List String) : List String :=
  match headerRow with
  | some hr => headerItems hr row
  | none => row.filter (fun cell => decide (jsTrim cell ≠ ""))

/-- The numbered entries pushed by the `dataRows.forEach` loop of
`TableConverter.convertTableToList`; `idx` is the `forEach` index. -/
def rowItemsGo (headerRow : Option (List String)) : List (List String) → Nat → List String
  | [], _ => []
  | row :: rest, idx =>
    (if 0 < (rowItems headerRow row).length then
        [natStr (idx + 1) ++ ". "
          ++ String.mk (joinSep " | ".data ((rowItems headerRow row).map String.data))]
      else []) ++ rowItemsGo headerRow rest (idx + 1)

/-- The `result` array of `TableConverter.convertTableToList`. -/
def convertResultList (rows : List (List String)) : List String :=
  if detectHeader rows then
    ("**Table: " ++ getTableTitle (rows.headD []) ++ "**\n")
      :: rowItemsGo (some (rows.headD [])) (rows.drop 1) 0
  else rowItemsGo none rows 0

/-- `TableConverter.convertTableToList`, starting from parsed rows (the
upstream HTML row/cell parsing is not needed by the claims). -/
def convertTableToList (rows : List (List String)) : String :=
  if rows.length = 0 then ""
  else ⟨joinNl ((convertResultList rows).map String.data) ++ ['\n']⟩

/-- Header-inference rule as claim C7 words it: with ≥2 rows, row 0 is a
header when its average cell length is under 70% of row 1's (stated here by
exact cross-multiplication); otherwise (including the 1-row case) when
every cell of row 0 is shorter than 50 characters and does not end in `.`,
`!` or `?`. -/
def specHeaderC7 (rows : List (List String)) : Prop :=
  (∃ r0 r1 rest, rows = r0 :: r1 :: rest ∧
      10 * cellSum r0 * r1.length < 7 * cellSum r1 * r0.length) ∨
    (∀ cell ∈ rows.headD [], cell.length < 50 ∧ endsPunct cell = false)

/-- C7: for every non-empty parsed row sequence, `detectHeader` holds iff
the claim's header-inference rule holds (70%-average rule when two rows
exist, falling through to the 50-character/terminal-punctuation rule). -/
theorem c7_header_inference (rows : List (List String)) (h : rows ≠ []) :
    detectHeader rows = true ↔ specHeaderC7 rows := by
  match rows with
  | [] => exact absurd rfl h
  | r0 :: restRows =>
    cases restRows with
    | nil =>
      simp only [detectHeader, specHeaderC7, if_false, Bool.false_eq_true]
      constructor
      · intro hall
        refine Or.inr ?_
        intro cell hcell
        have := (List.all_eq_true.mp hall) cell hcell
        simp only [Bool.and_eq_true, decide_eq_true_eq, Bool.not_eq_true'] at this
        simpa using this
      · rintro (⟨r0', r1', rest', heq, _⟩ | hall)
        · exact absurd heq (by simp)
        · refine List.all_eq_true.mpr ?_
          intro cell hcell
          have := hall cell (by simpa using hcell)
          simp only [Bool.and_eq_true, decide_eq_true_eq, Bool.not_eq_true']
          exact ⟨this.1, this.2⟩
    | cons r1 rs =>
      by_cases hcross : 10 * cellSum r0 * r1.length < 7 * cellSum r1 * r0.length
      · have hc := decide_eq_true (p := 10 * cellSum r0 * r1.length
          < 7 * cellSum r1 * r0.length) hcross
        simp only [detectHeader, hc, if_true, specHeaderC7]
        constructor
        · intro _
          exact Or.inl ⟨r0, r1, rs, rfl, hcross⟩
        · intro _
          trivial
      · have hc := decide_eq_false hcross
        simp only [detectHeader, hc, if_false, Bool.false_eq_true, specHeaderC7]
        constructor
        · intro hall
          refine Or.inr ?_
          intro cell hcell
          have := (List.all_eq_true.mp hall) cell (by simpa using hcell)
          simp only [Bool.and_eq_true, decide_eq_true_eq, Bool.not_eq_true'] at this
          exact this
        · rintro (⟨r0', r1', rest', heq, hlt⟩ | hall)
          · obtain ⟨h0, h1, _⟩ : r0 = r0' ∧ r1 = r1' ∧ rs = rest' := by
              simpa using heq
            subst h0; subst h1
            exact absurd hlt hcross
          · refine List.all_eq_true.mpr ?_
            intro cell hcell
            have := hall cell (by simpa using hcell)
            simp only [Bool.and_eq_true, decide_eq_true_eq, Bool.not_eq_true']
            exact ⟨this.1, this.2⟩

/-- Witness for C7 at a concrete two-row table. -/
theorem c7_header_inference_witness :
    detectHeader [["Name"], ["Alice Johnson"]] = true
      ↔ specHeaderC7 [["Name"], ["Alice Johnson"]] :=
  c7_header_inference [["Name"], ["Alice Johnson"]] (by decide)

/-- Counterexample for C6: with inferred header `["Name", "Age"]`, the
blank cell of the data row is NOT dropped from the joined item — the code
emits `1. Name:  | Age: 30`, because in the header path each item is
`label: value` and the label keeps it non-blank; the claim would demand
`1. Age: 30`. -/
theorem c6_counterexample :
    convertTableToList [["Name", "Age"], ["", "30"]]
        = "**Table: Name, Age**\n\n1. Name:  | Age: 30\n" ∧
      convertTableToList [["Name", "Age"], ["", "30"]]
        ≠ "**Table: Name, Age**\n\n1. Age: 30\n" := by
  constructor <;> decide

theorem jsTrimL_ne_nil_of_mem {l : List Char} {c : Char}
    (hc : c ∈ l) (hw : isJsWs c = false) : jsTrimL l ≠ [] := by
  unfold jsTrimL
  intro h
  rw [List.reverse_eq_nil_iff] at h
  rw [List.dropWhile_eq_nil_iff] at h
  have hc1 : c ∈ l.dropWhile isJsWs := by
    have hsplit := List.takeWhile_append_dropWhile (p := isJsWs) (l := l)
    rw [← hsplit] at hc
    rcases List.mem_append.mp hc with h1 | h2
    · have := List.mem_takeWhile_imp h1
      rw [this] at hw
      exact absurd hw (by simp)
    · exact h2
  have := h c (by simpa using hc1)
  rw [this] at hw
  exact absurd hw (by simp)

theorem headerItemsGo_length (hr : List String) (row : List String) :
    ∀ i, (headerItemsGo hr row i).length = row.length := by
  induction row with
  | nil => intro i; simp [headerItemsGo]
  | cons cell rest ih => intro i; simp [headerItemsGo, ih (i + 1)]

theorem headerItemsGo_colon (hr : List String) (row : List String) :
    ∀ i, ∀ it ∈ headerItemsGo hr row i, ':' ∈ it.data := by
  induction row with
  | nil => intro i it hit; simp [headerItemsGo] at hit
  | cons cell rest ih =>
    intro i it hit
    simp only [headerItemsGo, List.mem_cons] at hit
    rcases hit with heq | hmem
    · subst heq
      simp only [String.data_append]
      refine List.mem_append.mpr (Or.inl (List.mem_append.mpr (Or.inr ?_)))
      decide
    · exact ih (i + 1) it hmem

theorem headerItems_length (hr row : List String) :
    (headerItems hr row).length = row.length := by
  unfold headerItems
  rw [List.filter_eq_self.mpr, headerItemsGo_length]
  intro it hit
  have hcolon := headerItemsGo_colon hr row 0 it hit
  simp only [decide_eq_true_eq]
  intro habs
  have : jsTrimL it.data ≠ [] := jsTrimL_ne_nil_of_mem hcolon (by decide)
  apply this
  have : (jsTrim it).data = jsTrimL it.data := rfl
  rw [← this, habs]

theorem rowItemsGo_header_length (hr : List String) (dataRows : List (List String))
    (hne : ∀ r ∈ dataRows, r ≠ []) :
    ∀ idx, (rowItemsGo (some hr) dataRows idx).length = dataRows.length := by
  induction dataRows with
  | nil => intro idx; simp [rowItemsGo]
  | cons row rest ih =>
    intro idx
    have hrow : row ≠ [] := hne row (by simp)
    have hrest : ∀ r ∈ rest, r ≠ [] := fun r hr' => hne r (by simp [hr'])
    have hlen : 0 < (headerItems hr row).length := by
      rw [headerItems_length]
      exact List.length_pos.mpr hrow
    simp only [rowItemsGo, rowItems, hlen, if_true]
    simp [ih hrest (idx + 1)]

theorem rowItemsGo_noheader_length (rows : List (List String)) :
    ∀ idx, (rowItemsGo none rows idx).length
      = (rows.filter (fun r => r.any (fun c => decide (jsTrim c ≠ "")))).length := by
  induction rows with
  | nil => intro idx; simp [rowItemsGo]
  | cons row rest ih =>
    intro idx
    by_cases hany : row.any (fun c => decide (jsTrim c ≠ "")) = true
    · have hfil : 0 < (row.filter (fun c => decide (jsTrim c ≠ ""))).length := by
        rcases List.any_eq_true.mp hany with ⟨c, hc, hp⟩
        exact List.length_pos.mpr (fun habs => by
          have : c ∈ row.filter (fun c => decide (jsTrim c ≠ "")) :=
            List.mem_filter.mpr ⟨hc, hp⟩
          rw [habs] at this
          simp at this)
      simp only [rowItemsGo, rowItems, hfil, if_true]
      rw [List.filter_cons_of_pos (l := rest) hany]
      simp [ih (idx + 1)]
    · have hfil : ¬ 0 < (row.filter (fun c => decide (jsTrim c ≠ ""))).length := by
        simp only [List.length_pos, ne_eq, not_not]
        rw [List.filter_eq_nil_iff]
        intro c hc
        intro hp
        exact hany (List.any_eq_true.mpr ⟨c, hc, hp⟩)
      simp only [rowItemsGo, rowItems, hfil, if_false]
      rw [List.filter_cons_of_neg (l := rest) (by simpa using hany)]
      simp [ih (idx + 1)]

/-- C6 as amended: blank cells are dropped and all-blank rows omitted only
in the NO-header path (where the emitted entry count is the number of rows
with at least one non-blank cell); in the header path every data row is
emitted, since each `label: value` item contains the non-blank label. -/
theorem c6_amended_blank_dropping (rows : List (List String))
    (hne : ∀ r ∈ rows, r ≠ []) :
    (detectHeader rows = true →
        (convertResultList rows).length = rows.length) ∧
      (detectHeader rows = false →
        (convertResultList rows).length
          = (rows.filter (fun r => r.any (fun c => decide (jsTrim c ≠ "")))).length) := by
  constructor
  · intro hh
    have hrows : rows ≠ [] := by
      intro habs
      rw [habs] at hh
      simp [detectHeader] at hh
    unfold convertResultList
    rw [if_pos hh]
    have hdrop : ∀ r ∈ rows.drop 1, r ≠ [] := fun r hr =>
      hne r (List.mem_of_mem_drop hr)
    rw [List.length_cons, rowItemsGo_header_length _ _ hdrop 0]
    cases rows with
    | nil => exact absurd rfl hrows
    | cons r rs => simp
  · intro hh
    unfold convertResultList
    rw [if_neg (by simp [hh])]
    exact rowItemsGo_noheader_length rows 0

/-- Witness for C6-as-amended at a concrete header table and a concrete
header-free table. -/
theorem c6_amended_blank_dropping_witness :
    (detectHeader [["Name", "Age"], ["", "30"]] = true →
        (convertResultList [["Name", "Age"], ["", "30"]]).length = 2) ∧
      (detectHeader [["Name", "Age"], ["", "30"]] = false →
        (convertResultList [["Name", "Age"], ["", "30"]]).length
          = ([["Name", "Age"], ["", "30"]].filter
              (fun r => r.any (fun c => decide (jsTrim c ≠ "")))).length) :=
  c6_amended_blank_dropping [["Name", "Age"], ["", "30"]] (by decide)

/-- Counterexample for C1: the transcoded output of the three-column table
`Name/Age/City` has item lines with two ` | ` separators, hence ≥2 pipes;
the detector re-detects a table region on it. -/
theorem c1_counterexample :
    detectTextTables (convertTableToList
        [["Name", "Age", "City"], ["John", "30", "NYC"], ["Jane", "28", "LA"]]) ≠ [] := by
  decide

theorem hasRun3_cons (p : Char → Bool) (a : Char) (l : List Char)
    (h : hasRun3 p l = true) : hasRun3 p (a :: l) = true := by
  match l with
  | [] => simp [hasRun3] at h
  | [x] => simp [hasRun3] at h
  | x :: y :: rest => simp [hasRun3, h]

theorem hasRun3_append_right (p : Char → Bool) (t l : List Char)
    (h : hasRun3 p l = true) : hasRun3 p (t ++ l) = true := by
  induction t with
  | nil => simpa using h
  | cons a t' ih => exact hasRun3_cons p a (t' ++ l) ih

theorem hasRun3_append_left (p : Char → Bool) (l t : List Char)
    (h : hasRun3 p l = true) : hasRun3 p (l ++ t) = true := by
  induction l with
  | nil => simp [hasRun3] at h
  | cons a rest ih =>
    match rest with
    | [] => simp [hasRun3] at h
    | [x] => simp [hasRun3] at h
    | x :: y :: rs =>
      simp only [hasRun3, Bool.or_eq_true] at h
      rcases h with h | h
      · simp only [List.cons_append, hasRun3]
        rw [h]
        simp
      · have := ih h
        simp only [List.cons_append] at this ⊢
        simp only [hasRun3, this, Bool.or_true]

theorem hasRun3_jsTrimL (l : List Char) (h : hasRun3 isJsWs l = false) :
    hasRun3 isJsWs (jsTrimL l) = false := by
  set m := l.dropWhile isJsWs with hm
  have hmfalse : hasRun3 isJsWs m = false := by
    cases hsub : hasRun3 isJsWs m
    · rfl
    · exfalso
      have := hasRun3_append_right isJsWs (l.takeWhile isJsWs) m hsub
      rw [hm, List.takeWhile_append_dropWhile] at this
      rw [this] at h
      simp at h
  have hdec : m = jsTrimL l ++ (m.reverse.takeWhile isJsWs).reverse := by
    have hsplit : m.reverse.takeWhile isJsWs ++ m.reverse.dropWhile isJsWs
        = m.reverse := List.takeWhile_append_dropWhile isJsWs m.reverse
    have h2 : m = (m.reverse.dropWhile isJsWs).reverse
        ++ (m.reverse.takeWhile isJsWs).reverse := by
      conv_lhs => rw [← List.reverse_reverse m, ← hsplit]
      rw [List.reverse_append]
    simpa [jsTrimL, hm] using h2
  cases hres : hasRun3 isJsWs (jsTrimL l)
  · rfl
  · exfalso
    have := hasRun3_append_left isJsWs (jsTrimL l)
      ((m.reverse.takeWhile isJsWs).reverse) hres
    rw [← hdec] at this
    rw [this] at hmfalse
    simp at hmfalse

theorem jsTrimL_sublist (l : List Char) : List.Sublist (jsTrimL l) l := by
  unfold jsTrimL
  have h1 : List.Sublist (l.dropWhile isJsWs) l := List.dropWhile_sublist _
  have h2 : List.Sublist ((l.dropWhile isJsWs).reverse.dropWhile isJsWs).reverse
      (l.dropWhile isJsWs) := by
    have hs := List.dropWhile_sublist (l := (l.dropWhile isJsWs).reverse) (p := isJsWs)
    have := hs.reverse
    simpa using this
  exact h2.trans h1

theorem isTabularL_trim_false (l : List Char)
    (ht : l.count '\t' < 2) (hp : l.count '|' < 2)
    (hr : hasRun3 isJsWs l = false) :
    isTabularL (jsTrimL l) = false := by
  have hsub := jsTrimL_sublist l
  have h1 : (jsTrimL l).count '\t' < 2 := lt_of_le_of_lt (hsub.count_le '\t') ht
  have h2 : (jsTrimL l).count '|' < 2 := lt_of_le_of_lt (hsub.count_le '|') hp
  have h3 := hasRun3_jsTrimL l hr
  simp only [isTabularL, Bool.or_eq_false_iff, Bool.and_eq_false_iff]
  exact ⟨⟨decide_eq_false (by omega), decide_eq_false (by omega)⟩, Or.inl h3⟩

/-- No two adjacent whitespace characters. -/
def noWs2 : List Char → Bool
  | a :: b :: rest => Bool.not (isJsWs a && isJsWs b) && noWs2 (b :: rest)
  | _ => true

theorem noWs2_cons₂ (y u : Char) (l : List Char) :
    noWs2 (y :: u :: l) = (Bool.not (isJsWs y && isJsWs u) && noWs2 (u :: l)) := rfl

theorem hasRun3_cons₃ (p : Char → Bool) (a b c : Char) (l : List Char) :
    hasRun3 p (a :: b :: c :: l) = ((p a && p b && p c) || hasRun3 p (b :: c :: l)) := rfl

theorem hasRun3_eq_false_of_noWs2 (l : List Char) (h : noWs2 l = true) :
    hasRun3 isJsWs l = false := by
  induction l with
  | nil => rfl
  | cons a rest ih =>
    match rest with
    | [] => rfl
    | [x] => rfl
    | b :: c :: rs =>
      rw [noWs2_cons₂] at h
      have h1 : Bool.not (isJsWs a && isJsWs b) = true := ((Bool.and_eq_true _ _).mp h).1
      have h2 : noWs2 (b :: c :: rs) = true := ((Bool.and_eq_true _ _).mp h).2
      have hrec := ih h2
      rw [hasRun3_cons₃, hrec, Bool.or_false]
      cases ha : isJsWs a
      · simp
      · cases hb : isJsWs b
        · simp [hb]
        · rw [ha, hb] at h1
          exact absurd h1 (by decide)

theorem getLastD_cons₂ (y u : Char) (l : List Char) (d : Char) :
    (y :: u :: l).getLastD d = (u :: l).getLastD d := by
  simp [List.getLastD_cons]

theorem headD_mem {l : List Char} (h : l ≠ []) (d : Char) : l.headD d ∈ l := by
  cases l with
  | nil => exact absurd rfl h
  | cons a rest => simp [List.headD]

theorem getLastD_mem {l : List Char} (h : l ≠ []) (d : Char) : l.getLastD d ∈ l := by
  induction l generalizing d with
  | nil => exact absurd rfl h
  | cons a rest ih =>
    rw [List.getLastD_cons]
    cases rest with
    | nil => simp [List.getLastD]
    | cons b rs =>
      exact List.mem_cons_of_mem a (ih (by simp) a)

theorem noWs2_append {a b : List Char} (ha : noWs2 a = true) (hb : noWs2 b = true)
    (hmid : isJsWs (a.getLastD 'x') = false ∨ isJsWs (b.headD 'x') = false) :
    noWs2 (a ++ b) = true := by
  induction a with
  | nil => simpa using hb
  | cons y a' ih =>
    cases a' with
    | nil =>
      cases b with
      | nil => simp [noWs2]
      | cons z bs =>
        have hshape : ([y] ++ z :: bs) = y :: z :: bs := by simp
        rw [hshape, noWs2_cons₂]
        have hyz : isJsWs y = false ∨ isJsWs z = false := by
          simpa [List.getLastD, List.headD] using hmid
        have hnot : Bool.not (isJsWs y && isJsWs z) = true := by
          rcases hyz with h | h <;> simp [h]
        rw [hnot, hb]
        rfl
    | cons u a'' =>
      rw [noWs2_cons₂] at ha
      have h1 : Bool.not (isJsWs y && isJsWs u) = true := ((Bool.and_eq_true _ _).mp ha).1
      have h2 : noWs2 (u :: a'') = true := ((Bool.and_eq_true _ _).mp ha).2
      have hmid' : isJsWs ((u :: a'').getLastD 'x') = false
          ∨ isJsWs (b.headD 'x') = false := by
        rcases hmid with h | h
        · left; rwa [getLastD_cons₂] at h
        · right; exact h
      have hrec := ih h2 hmid'
      have hshape : (y :: u :: a'') ++ b = y :: u :: (a'' ++ b) := by simp
      rw [hshape, noWs2_cons₂]
      have hshape2 : (u :: a'') ++ b = u :: (a'' ++ b) := by simp
      rw [hshape2] at hrec
      rw [h1, hrec]
      rfl

theorem noWs2_of_nonws {l : List Char} (h : ∀ c ∈ l, isJsWs c = false) :
    noWs2 l = true := by
  induction l with
  | nil => rfl
  | cons a rest ih =>
    cases rest with
    | nil => rfl
    | cons b rs =>
      rw [noWs2_cons₂]
      have hrec := ih (fun c hc => h c (List.mem_cons_of_mem a hc))
      have ha : isJsWs a = false := h a (by simp)
      rw [hrec, ha]
      simp

/-- A clean printable chunk: nonempty, free of newlines and tabs, with no
two adjacent whitespace characters and non-whitespace first and last
characters. -/
def chunkOk (l : List Char) : Prop :=
  l ≠ [] ∧ '\n' ∉ l ∧ '\t' ∉ l ∧ noWs2 l = true ∧
    isJsWs (l.headD 'x') = false ∧ isJsWs (l.getLastD 'x') = false

theorem headD_append_left {a b : List Char} (h : a ≠ []) (d : Char) :
    (a ++ b).headD d = a.headD d := by
  cases a with
  | nil => exact absurd rfl h
  | cons x xs => simp [List.headD]

theorem getLastD_ne_nil_default {b : List Char} (h : b ≠ []) (d₁ d₂ : Char) :
    b.getLastD d₁ = b.getLastD d₂ := by
  cases b with
  | nil => exact absurd rfl h
  | cons z zs => rw [List.getLastD_cons, List.getLastD_cons]

theorem getLastD_append_right {a b : List Char} (h : b ≠ []) (d : Char) :
    (a ++ b).getLastD d = b.getLastD d := by
  induction a generalizing d with
  | nil => simp
  | cons x xs ih =>
    have hshape : (x :: xs) ++ b = x :: (xs ++ b) := by simp
    rw [hshape, List.getLastD_cons, ih x]
    exact getLastD_ne_nil_default h x d

theorem chunkOk_glue {a sep b : List Char} (ha : chunkOk a) (hb : chunkOk b)
    (hsep : '\n' ∉ sep ∧ '\t' ∉ sep ∧ noWs2 sep = true) :
    chunkOk (a ++ sep ++ b) := by
  obtain ⟨hane, han, hat, haw, hah, hal⟩ := ha
  obtain ⟨hbne, hbn, hbt, hbw, hbh, hbl⟩ := hb
  obtain ⟨hsn, hst, hsw⟩ := hsep
  have hsb : noWs2 (sep ++ b) = true := noWs2_append hsw hbw (Or.inr hbh)
  have hasb : noWs2 (a ++ (sep ++ b)) = true := noWs2_append haw hsb (Or.inl hal)
  refine ⟨by simp [hane], ?_, ?_, ?_, ?_, ?_⟩
  · intro hmem
    rcases List.mem_append.mp hmem with hmem2 | hmem2
    · rcases List.mem_append.mp hmem2 with h | h
      · exact han h
      · exact hsn h
    · exact hbn hmem2
  · intro hmem
    rcases List.mem_append.mp hmem with hmem2 | hmem2
    · rcases List.mem_append.mp hmem2 with h | h
      · exact hat h
      · exact hst h
    · exact hbt hmem2
  · rw [List.append_assoc]
    exact hasb
  · rw [List.append_assoc, headD_append_left hane]
    exact hah
  · rw [getLastD_append_right hbne]
    exact hbl

theorem chunkOk_append {a b : List Char} (ha : chunkOk a) (hb : chunkOk b) :
    chunkOk (a ++ b) := by
  have h := @chunkOk_glue a [] b ha hb ⟨by simp, by simp, rfl⟩
  simpa using h

/-- Cell text as hypothesised by the amended C1: nonempty and purely
alphanumeric (the shape the HTML cell parser's whitespace collapse and trim
produce for simple tables). -/
def cleanCell (s : String) : Prop :=
  s.data ≠ [] ∧ s.data.all (fun c => c.isAlphanum) = true

instance cleanCellDecidable (s : String) : Decidable (cleanCell s) :=
  decidable_of_iff (s.data ≠ [] ∧ s.data.all (fun c => c.isAlphanum) = true) Iff.rfl

theorem cleanCell_forall {s : String} (h : cleanCell s) :
    ∀ c ∈ s.data, c.isAlphanum = true := by
  intro c hc
  exact List.all_eq_true.mp h.2 c hc

theorem alphanum_char_clean {c : Char} (h : c.isAlphanum = true) :
    isJsWs c = false ∧ c ≠ '\n' ∧ c ≠ '\t' ∧ c ≠ '|' := by
  refine ⟨?_, ?_, ?_, ?_⟩
  · cases hw : isJsWs c
    · rfl
    · exfalso
      simp only [isJsWs, Bool.or_eq_true, decide_eq_true_eq] at hw
      rcases hw with ((((h1 | h1) | h1) | h1) | h1) | h1 <;>
        (subst h1; exact absurd h (by decide))
  · intro h1; subst h1; exact absurd h (by decide)
  · intro h1; subst h1; exact absurd h (by decide)
  · intro h1; subst h1; exact absurd h (by decide)

theorem chunkOk_of_clean {s : String} (h : cleanCell s) : chunkOk s.data := by
  obtain ⟨hne, -⟩ := id h
  have hall := cleanCell_forall h
  refine ⟨hne, ?_, ?_, ?_, ?_, ?_⟩
  · intro hmem; exact (alphanum_char_clean (hall _ hmem)).2.1 rfl
  · intro hmem; exact (alphanum_char_clean (hall _ hmem)).2.2.1 rfl
  · exact noWs2_of_nonws (fun c hc => (alphanum_char_clean (hall c hc)).1)
  · exact (alphanum_char_clean (hall _ (headD_mem hne 'x'))).1
  · exact (alphanum_char_clean (hall _ (getLastD_mem hne 'x'))).1

theorem clean_pipe_free {s : String} (h : cleanCell s) : '|' ∉ s.data := by
  intro hmem
  exact (alphanum_char_clean (cleanCell_forall h _ hmem)).2.2.2 rfl

theorem clean_trim_ne {s : String} (h : cleanCell s) :
    decide (jsTrim s ≠ "") = true := by
  simp only [decide_eq_true_eq]
  intro habs
  obtain ⟨hne, -⟩ := id h
  have hall := cleanCell_forall h
  have hch : ∃ ch, ch ∈ s.data := by
    cases hd : s.data with
    | nil => exact absurd hd hne
    | cons a l => exact ⟨a, by simp [hd]⟩
  obtain ⟨ch, hch⟩ := hch
  have hnz := jsTrimL_ne_nil_of_mem hch (alphanum_char_clean (hall ch hch)).1
  apply hnz
  have hdat : (jsTrim s).data = jsTrimL s.data := rfl
  rw [← hdat, habs]

theorem natStrGo_clean (fuel : Nat) : ∀ n, ∀ c ∈ natStrGo fuel n,
    isJsWs c = false ∧ c ≠ '\n' ∧ c ≠ '\t' ∧ c ≠ '|' := by
  induction fuel with
  | zero => intro n c hc; simp [natStrGo] at hc
  | succ fuel ih =>
    intro n c hc
    have hdigit : ∀ d : Nat, d < 10 →
        isJsWs (Char.ofNat (48 + d)) = false ∧ Char.ofNat (48 + d) ≠ '\n'
          ∧ Char.ofNat (48 + d) ≠ '\t' ∧ Char.ofNat (48 + d) ≠ '|' := by
      intro d hd
      interval_cases d <;> exact ⟨by decide, by decide, by decide, by decide⟩
    simp only [natStrGo] at hc
    by_cases hn : n < 10
    · rw [if_pos hn] at hc
      simp only [List.mem_singleton] at hc
      subst hc
      exact hdigit n hn
    · rw [if_neg hn] at hc
      rcases List.mem_append.mp hc with h1 | h1
      · exact ih (n / 10) c h1
      · simp only [List.mem_singleton] at h1
        subst h1
        exact hdigit (n % 10) (Nat.mod_lt _ (by omega))

theorem natStrGo_ne_nil (fuel n : Nat) (h : 0 < fuel) : natStrGo fuel n ≠ [] := by
  match fuel with
  | 0 => omega
  | f + 1 =>
    simp only [natStrGo]
    by_cases hn : n < 10
    · rw [if_pos hn]; simp
    · rw [if_neg hn]; simp

theorem natStr_clean (n : Nat) :
    chunkOk (natStr n).data ∧ '|' ∉ (natStr n).data := by
  have hne : natStrGo (n + 1) n ≠ [] := natStrGo_ne_nil (n + 1) n (by omega)
  have hclean := natStrGo_clean (n + 1) n
  have hdata : (natStr n).data = natStrGo (n + 1) n := rfl
  rw [hdata]
  refine ⟨⟨hne, ?_, ?_, ?_, ?_, ?_⟩, ?_⟩
  · intro hm; exact (hclean _ hm).2.1 rfl
  · intro hm; exact (hclean _ hm).2.2.1 rfl
  · exact noWs2_of_nonws (fun c hc => (hclean c hc).1)
  · exact (hclean _ (headD_mem hne 'x')).1
  · exact (hclean _ (getLastD_mem hne 'x')).1
  · intro hm; exact (hclean _ hm).2.2.2 rfl

theorem labelFor_clean (hr : List String) (hhr : ∀ cell ∈ hr, cleanCell cell)
    (i : Nat) : chunkOk (labelFor hr i).data ∧ '|' ∉ (labelFor hr i).data := by
  unfold labelFor
  by_cases hl : hr.getD i "" = ""
  · rw [if_pos hl]
    have hn := natStr_clean (i + 1)
    have hshape : ("Column " ++ natStr (i + 1)).data
        = "Column".data ++ [' '] ++ (natStr (i + 1)).data := by
      rw [String.data_append]
      have : "Column ".data = "Column".data ++ [' '] := by decide
      rw [this]
    rw [hshape]
    constructor
    · have hcol : chunkOk "Column".data := by
        refine ⟨by decide, by decide, by decide, by decide, by decide, by decide⟩
      exact chunkOk_glue hcol hn.1 ⟨by decide, by decide, by decide⟩
    · intro hm
      rcases List.mem_append.mp hm with h1 | h1
      · rcases List.mem_append.mp h1 with h2 | h2
        · exact absurd h2 (by decide)
        · exact absurd h2 (by decide)
      · exact hn.2 h1
  · rw [if_neg hl]
    have hmem : hr.getD i "" ∈ hr := by
      rw [List.getD_eq_getD_get?]
      cases hget : hr.get? i with
      | none => rw [List.getD_eq_getD_get?, hget] at hl; exact absurd rfl hl
      | some v =>
        simp only [Option.getD_some]
        exact List.get?_mem hget
    have hc := hhr _ hmem
    exact ⟨chunkOk_of_clean hc, clean_pipe_free hc⟩

theorem part_clean (hr : List String) (hhr : ∀ cell ∈ hr, cleanCell cell)
    (i : Nat) (cell : String) (hcell : cleanCell cell) :
    chunkOk (labelFor hr i ++ ": " ++ cell).data
      ∧ '|' ∉ (labelFor hr i ++ ": " ++ cell).data := by
  have hlab := labelFor_clean hr hhr i
  have hc := chunkOk_of_clean hcell
  have hdata : (labelFor hr i ++ ": " ++ cell).data
      = (labelFor hr i).data ++ ": ".data ++ cell.data := by
    rw [String.data_append, String.data_append]
  rw [hdata]
  constructor
  · exact chunkOk_glue hlab.1 hc ⟨by decide, by decide, by decide⟩
  · intro hm
    rcases List.mem_append.mp hm with h1 | h1
    · rcases List.mem_append.mp h1 with h2 | h2
      · exact hlab.2 h2
      · exact absurd h2 (by decide)
    · exact clean_pipe_free hcell h1

theorem headerItemsGo_shape (hr : List String) (row : List String) :
    ∀ i, (∀ cell ∈ row, cleanCell cell) → ∀ it ∈ headerItemsGo hr row i,
      ∃ j cell, cleanCell cell ∧ it = labelFor hr j ++ ": " ++ cell := by
  induction row with
  | nil => intro i _ it hit; simp [headerItemsGo] at hit
  | cons cell rest ih =>
    intro i hclean it hit
    simp only [headerItemsGo, List.mem_cons] at hit
    rcases hit with heq | hmem
    · exact ⟨i, cell, hclean cell (by simp), heq⟩
    · exact ih (i + 1) (fun c hc => hclean c (by simp [hc])) it hmem

theorem rowItems_clean (hropt : Option (List String))
    (hhr : ∀ hr, hropt = some hr → ∀ cell ∈ hr, cleanCell cell)
    (row : List String) (hrow : ∀ cell ∈ row, cleanCell cell) :
    ∀ p ∈ (rowItems hropt row).map String.data, chunkOk p ∧ p.count '|' = 0 := by
  intro p hp
  rcases List.mem_map.mp hp with ⟨it, hit, heq⟩
  cases hropt with
  | some hr =>
    have hit' : it ∈ headerItemsGo hr row 0 := by
      have : rowItems (some hr) row = headerItems hr row := rfl
      rw [this] at hit
      exact List.mem_of_mem_filter hit
    obtain ⟨j, cell, hcell, hshape⟩ := headerItemsGo_shape hr row 0 hrow it hit'
    subst hshape
    have hpart := part_clean hr (hhr hr rfl) j cell hcell
    rw [← heq]
    exact ⟨hpart.1, List.count_eq_zero.mpr hpart.2⟩
  | none =>
    have hit' : it ∈ row := by
      have : rowItems none row = row.filter (fun cell => decide (jsTrim cell ≠ "")) := rfl
      rw [this] at hit
      exact List.mem_of_mem_filter hit
    have hc := hrow it hit'
    rw [← heq]
    exact ⟨chunkOk_of_clean hc, List.count_eq_zero.mpr (clean_pipe_free hc)⟩

theorem joinSep_clean (sep : List Char)
    (hsep : '\n' ∉ sep ∧ '\t' ∉ sep ∧ noWs2 sep = true)
    (parts : List (List Char))
    (hparts : ∀ p ∈ parts, chunkOk p ∧ p.count '|' = 0)
    (hlen : parts.length ≤ 2) (hne : parts ≠ []) :
    chunkOk (joinSep sep parts) ∧ (joinSep sep parts).count '|' ≤ sep.count '|' := by
  match parts with
  | [] => exact absurd rfl hne
  | [x] =>
    have hx := hparts x (by simp)
    constructor
    · simpa [joinSep] using hx.1
    · simp [joinSep, hx.2]
  | [x, y] =>
    have hx := hparts x (by simp)
    have hy := hparts y (by simp)
    have hshape : joinSep sep [x, y] = x ++ sep ++ y := by
      simp [joinSep]
    rw [hshape]
    constructor
    · exact chunkOk_glue hx.1 hy.1 hsep
    · rw [List.count_append, List.count_append, hx.2, hy.2]
      omega
  | x :: y :: z :: rest =>
    exfalso
    simp only [List.length_cons] at hlen
    omega

theorem lineOk_of_chunk {l : List Char} (h : chunkOk l) (hp : l.count '|' < 2) :
    isTabularL (jsTrimL l) = false :=
  isTabularL_trim_false l
    (by rw [List.count_eq_zero.mpr h.2.2.1]; omega)
    hp (hasRun3_eq_false_of_noWs2 l h.2.2.2.1)

theorem rowItemsGo_lines_clean (hropt : Option (List String))
    (hhr : ∀ hr, hropt = some hr → ∀ cell ∈ hr, cleanCell cell)
    (dataRows : List (List String))
    (hrows : ∀ r ∈ dataRows, r.length ≤ 2 ∧ ∀ cell ∈ r, cleanCell cell) :
    ∀ idx, ∀ s ∈ rowItemsGo hropt dataRows idx,
      chunkOk s.data ∧ s.data.count '|' < 2 := by
  induction dataRows with
  | nil => intro idx s hs; simp [rowItemsGo] at hs
  | cons row rest ih =>
    intro idx s hs
    have hrow := hrows row (by simp)
    have hrest : ∀ r ∈ rest, r.length ≤ 2 ∧ ∀ cell ∈ r, cleanCell cell :=
      fun r hrm => hrows r (by simp [hrm])
    simp only [rowItemsGo] at hs
    rcases List.mem_append.mp hs with h1 | h1
    · by_cases hemit : 0 < (rowItems hropt row).length
      · rw [if_pos hemit, List.mem_singleton] at h1
        subst h1
        have hparts := rowItems_clean hropt hhr row hrow.2
        have hplen : ((rowItems hropt row).map String.data).length ≤ 2 := by
          rw [List.length_map]
          cases hropt with
          | some hr =>
            have : rowItems (some hr) row = headerItems hr row := rfl
            rw [this, headerItems_length]
            exact hrow.1
          | none =>
            have : rowItems none row
                = row.filter (fun cell => decide (jsTrim cell ≠ "")) := rfl
            rw [this]
            exact le_trans (List.length_filter_le _ _) hrow.1
        have hpne : (rowItems hropt row).map String.data ≠ [] := by
          intro habs
          rw [← List.length_eq_zero, List.length_map] at habs
          omega
        have hjoin := joinSep_clean " | ".data ⟨by decide, by decide, by decide⟩
          ((rowItems hropt row).map String.data) hparts hplen hpne
        have hnum := natStr_clean (idx + 1)
        have hdata : (natStr (idx + 1) ++ ". "
            ++ String.mk (joinSep " | ".data ((rowItems hropt row).map String.data))).data
            = (natStr (idx + 1)).data ++ ". ".data
              ++ joinSep " | ".data ((rowItems hropt row).map String.data) := by
          rw [String.data_append, String.data_append]
        rw [hdata]
        constructor
        · exact chunkOk_glue hnum.1 hjoin.1 ⟨by decide, by decide, by decide⟩
        · rw [List.count_append, List.count_append]
          rw [List.count_eq_zero.mpr hnum.2]
          have hsep : (" | ".data.count '|') = 1 := by decide
          have hdot : (". ".data.count '|') = 0 := by decide
          rw [hdot]
          omega
      · rw [if_neg hemit] at h1
        simp at h1
    · exact ih hrest (idx + 1) s h1

theorem getTableTitle_clean (hr : List String) (hne : hr ≠ [])
    (hlen : hr.length ≤ 2) (hhr : ∀ cell ∈ hr, cleanCell cell) :
    chunkOk (getTableTitle hr).data ∧ (getTableTitle hr).data.count '|' = 0 := by
  unfold getTableTitle
  set fl := hr.filter (fun cell => decide (jsTrim cell ≠ "")) with hfl
  have hflmem : ∀ cell ∈ fl, cleanCell cell := by
    intro cell hc
    exact hhr cell (List.mem_of_mem_filter hc)
  have hflne : fl ≠ [] := by
    cases hr with
    | nil => exact absurd rfl hne
    | cons c cs =>
      have hc := hhr c (by simp)
      rw [hfl]
      intro habs
      have hmem : c ∈ List.filter (fun cell => decide (jsTrim cell ≠ "")) (c :: cs) :=
        List.mem_filter.mpr ⟨by simp, clean_trim_ne hc⟩
      rw [habs] at hmem
      simp at hmem
  have hfllen : fl.length ≤ 2 := le_trans (List.length_filter_le _ _) hlen
  have hparts : ∀ p ∈ fl.map String.data, chunkOk p ∧ p.count '|' = 0 := by
    intro p hp
    rcases List.mem_map.mp hp with ⟨cell, hcell, heq⟩
    have hc := hflmem cell hcell
    rw [← heq]
    exact ⟨chunkOk_of_clean hc, List.count_eq_zero.mpr (clean_pipe_free hc)⟩
  have hpne : fl.map String.data ≠ [] := by
    intro habs
    exact hflne (List.map_eq_nil_iff.mp habs)
  have hplen : (fl.map String.data).length ≤ 2 := by
    rw [List.length_map]; exact hfllen
  have hjoin := joinSep_clean ", ".data ⟨by decide, by decide, by decide⟩
    (fl.map String.data) hparts hplen hpne
  have hjcount : (joinSep ", ".data (fl.map String.data)).count '|' = 0 := by
    have := hjoin.2
    have hz : (", ".data.count '|') = 0 := by decide
    omega
  by_cases hbig : 50 < (String.mk (joinSep ", ".data (fl.map String.data))).length
  · rw [if_pos hbig]
    exact ⟨⟨by decide, by decide, by decide, by decide, by decide, by decide⟩, by decide⟩
  · rw [if_neg hbig]
    exact ⟨hjoin.1, hjcount⟩

theorem splitNl_append_nl (xs ys : List Char) :
    splitNl (xs ++ '\n' :: ys) = splitNl xs ++ splitNl ys := by
  induction xs with
  | nil => simp [splitNl]
  | cons c xs' ih =>
    by_cases hc : c = '\n'
    · subst hc
      have h1 : splitNl ('\n' :: (xs' ++ '\n' :: ys)) = [] :: splitNl (xs' ++ '\n' :: ys) := by
        simp [splitNl]
      have h2 : splitNl ('\n' :: xs') = [] :: splitNl xs' := by simp [splitNl]
      rw [List.cons_append, h1, ih, h2]
      simp
    · have hsh : (c :: xs') ++ '\n' :: ys = c :: (xs' ++ '\n' :: ys) := by simp
      rw [hsh]
      simp only [splitNl, hc, if_false]
      rw [ih]
      cases h : splitNl xs' with
      | nil => exact absurd h (splitNl_ne_nil xs')
      | cons f fs => simp

theorem splitNl_no_nl (xs : List Char) (h : '\n' ∉ xs) : splitNl xs = [xs] := by
  induction xs with
  | nil => rfl
  | cons c rest ih =>
    have hc : ¬ c = '\n' := fun habs => h (by simp [habs])
    have hrest : '\n' ∉ rest := fun habs => h (by simp [habs])
    simp only [splitNl, hc, if_false]
    rw [ih hrest]

theorem splitNl_joinNl_flat (ps : List (List Char)) (h : ps ≠ []) :
    splitNl (joinNl ps) = ps.flatMap splitNl := by
  induction ps with
  | nil => exact absurd rfl h
  | cons p ps' ih =>
    cases ps' with
    | nil => simp [joinNl]
    | cons q qs =>
      have hsh : joinNl (p :: q :: qs) = p ++ '\n' :: joinNl (q :: qs) := rfl
      rw [hsh, splitNl_append_nl, ih (by simp)]
      simp

theorem convertResultList_ne_nil (rows : List (List String))
    (hrows : ∀ r ∈ rows, r ≠ [] ∧ r.length ≤ 2 ∧ ∀ cell ∈ r, cleanCell cell)
    (hne : rows ≠ []) : convertResultList rows ≠ [] := by
  unfold convertResultList
  by_cases hh : detectHeader rows
  · rw [if_pos hh]; simp
  · rw [if_neg hh]
    cases rows with
    | nil => exact absurd rfl hne
    | cons r0 rs =>
      have hr0 := hrows r0 (by simp)
      have hemit : 0 < (rowItems none r0).length := by
        have heq : rowItems none r0 = r0.filter (fun cell => decide (jsTrim cell ≠ "")) := rfl
        rw [heq]
        cases hr : r0 with
        | nil => exact absurd hr hr0.1
        | cons c cs =>
          have hc := hr0.2.2 c (by simp [hr])
          have : c ∈ List.filter (fun cell => decide (jsTrim cell ≠ "")) (c :: cs) :=
            List.mem_filter.mpr ⟨by simp, clean_trim_ne hc⟩
          exact List.length_pos.mpr (fun habs => by rw [habs] at this; simp at this)
      simp only [rowItemsGo, hemit, if_true]
      simp

/-- C1 as amended: re-running the detector on the transcoded output CAN
re-detect a table (an item joining k fields contains k−1 pipes, so k ≥ 3
trips the ≥2-pipes heuristic); no table is re-detected when every row has
at most 2 cells and cells are nonempty alphanumeric text, since then every
output line has at most one pipe, no tabs and no whitespace run. -/
theorem c1_amended_no_redetect (rows : List (List String))
    (hrows : ∀ r ∈ rows, r ≠ [] ∧ r.length ≤ 2 ∧ ∀ cell ∈ r, cleanCell cell) :
    detectTextTables (convertTableToList rows) = [] := by
  cases hrc : rows with
  | nil => subst hrc; decide
  | cons r0 rs =>
    subst hrc
    have hlen0 : ¬ (r0 :: rs).length = 0 := by simp
    have hout : convertTableToList (r0 :: rs)
        = ⟨joinNl ((convertResultList (r0 :: rs)).map String.data) ++ ['\n']⟩ := by
      unfold convertTableToList
      rw [if_neg hlen0]
    set ps := (convertResultList (r0 :: rs)).map String.data with hps
    have hpsne : ps ≠ [] := by
      rw [hps]
      intro habs
      exact convertResultList_ne_nil (r0 :: rs) hrows (by simp)
        (List.map_eq_nil_iff.mp habs)
    have hlines : ∀ l ∈ splitNl (joinNl ps ++ ['\n']), isTabularL (jsTrimL l) = false := by
      have hdecomp : splitNl (joinNl ps ++ ['\n'])
          = (ps.flatMap splitNl) ++ [[]] := by
        have h1 : joinNl ps ++ ['\n'] = joinNl ps ++ '\n' :: [] := rfl
        rw [h1, splitNl_append_nl, splitNl_joinNl_flat ps hpsne]
        rfl
      rw [hdecomp]
      intro l hl
      rcases List.mem_append.mp hl with hl1 | hl1
      · rcases List.mem_flatMap.mp hl1 with ⟨p, hp, hlp⟩
        -- p is the data of an entry of convertResultList
        rw [hps] at hp
        rcases List.mem_map.mp hp with ⟨s, hsmem, hseq⟩
        unfold convertResultList at hsmem
        by_cases hh : detectHeader (r0 :: rs)
        · rw [if_pos hh] at hsmem
          simp only [List.headD_cons, List.mem_cons] at hsmem
          rcases hsmem with hstitle | hsitem
          · -- title entry: "**Table: t**\n"
            subst hstitle
            have hr0 := hrows r0 (by simp)
            have htitle := getTableTitle_clean r0 hr0.1 hr0.2.1 hr0.2.2
            have hddat : ("**Table: " ++ getTableTitle r0 ++ "**\n").data
                = ("**Table:".data ++ [' ']
                    ++ ((getTableTitle r0).data ++ "**".data)) ++ ['\n'] := by
              rw [String.data_append, String.data_append]
              have h1 : "**Table: ".data = "**Table:".data ++ [' '] := by decide
              have h2 : "**\n".data = "**".data ++ ['\n'] := by decide
              rw [h1, h2]
              simp [List.append_assoc]
            have htl : chunkOk ("**Table:".data ++ [' ']
                ++ ((getTableTitle r0).data ++ "**".data)) := by
              have hstar : chunkOk ("**".data) := by
                refine ⟨by decide, by decide, by decide, by decide, by decide, by decide⟩
              have htb : chunkOk ("**Table:".data) := by
                refine ⟨by decide, by decide, by decide, by decide, by decide, by decide⟩
              exact chunkOk_glue htb (chunkOk_append htitle.1 hstar)
                ⟨by decide, by decide, by decide⟩
            have hpc : ("**Table:".data ++ [' ']
                ++ ((getTableTitle r0).data ++ "**".data)).count '|' < 2 := by
              rw [List.count_append, List.count_append, List.count_append]
              rw [htitle.2]
              have e1 : ("**Table:".data.count '|') = 0 := by decide
              have e2 : ([' '].count '|') = 0 := by decide
              have e3 : ("**".data.count '|') = 0 := by decide
              omega
            rw [← hseq, hddat] at hlp
            rw [splitNl_append_nl] at hlp
            rw [splitNl_no_nl _ htl.2.1] at hlp
            have hnil : splitNl ([] : List Char) = [[]] := rfl
            rw [hnil] at hlp
            simp only [List.mem_append, List.mem_singleton] at hlp
            rcases hlp with hlp | hlp
            · subst hlp
              exact lineOk_of_chunk htl hpc
            · subst hlp
              decide
          · -- numbered item entry
            have hdrop : ∀ r ∈ rs, r.length ≤ 2 ∧ ∀ cell ∈ r, cleanCell cell := by
              intro r hrm
              have := hrows r (by simp [hrm])
              exact ⟨this.2.1, this.2.2⟩
            have hsc := rowItemsGo_lines_clean (some r0)
              (by intro hr' heq' cell hc; cases heq'; exact (hrows r0 (by simp)).2.2 cell hc)
              rs hdrop 0 s hsitem
            rw [← hseq] at hlp
            rw [splitNl_no_nl _ hsc.1.2.1] at hlp
            simp only [List.mem_singleton] at hlp
            subst hlp
            exact lineOk_of_chunk hsc.1 hsc.2
        · rw [if_neg hh] at hsmem
          have hall : ∀ r ∈ r0 :: rs, r.length ≤ 2 ∧ ∀ cell ∈ r, cleanCell cell := by
            intro r hrm
            have := hrows r hrm
            exact ⟨this.2.1, this.2.2⟩
          have hsc := rowItemsGo_lines_clean none (by intro hr' heq'; cases heq')
            (r0 :: rs) hall 0 s hsmem
          rw [← hseq] at hlp
          rw [splitNl_no_nl _ hsc.1.2.1] at hlp
          simp only [List.mem_singleton] at hlp
          subst hlp
          exact lineOk_of_chunk hsc.1 hsc.2
      · simp only [List.mem_singleton] at hl1
        subst hl1
        decide
    rw [hout]
    unfold detectTextTables
    apply dttGo_no_tab
    intro l hlmem
    rcases List.mem_map.mp hlmem with ⟨lc, hlc, hleq⟩
    have := hlines lc hlc
    rw [← hleq]
    exact this

/-- Witness for C1-as-amended at a concrete two-column table. -/
theorem c1_amended_no_redetect_witness :
    detectTextTables (convertTableToList [["Name", "Age"], ["John", "30"]]) = [] :=
  c1_amended_no_redetect [["Name", "Age"], ["John", "30"]] (by decide)

/-- Inline span produced by `FileWriter.parseInlineFormatting` (a TextRun
with its bold/italics flags). -/
inductive Span where
  | plain (text : String)
  | italic (text : String)
  | bold (text : String)
  | boldItalic (text : String)
deriving DecidableEq

/-- Backtick stripping, `text.replace(/`([^`]+)`/g, '$1')`, as a single
pass: `none` means outside any backtick pair, `some buf` means after an
unmatched opening backtick with `buf` the (reversed) characters seen since
it; an unclosed backtick is emitted literally. -/
def btGo : Option (List Char) → List Char → List Char
  | none, [] => []
  | some buf, [] => '`' :: buf.reverse
  | none, c :: rest => if c = '`' then btGo (some []) rest else c :: btGo none rest
  | some buf, c :: rest =>
    if c = '`' then
      if buf.isEmpty then '`' :: btGo (some []) rest
      else buf.reverse ++ btGo none rest
    else btGo (some (c :: buf)) rest

/-- Lazy scan for the closing delimiter `d` after a non-greedy group
`(.+?)`: consume at least one character, stop at the earliest position
where `d` follows; `.` does not match a newline. -/
def scanClose (d : List Char) : List Char → Option (List Char × List Char)
  | [] => none
  | c :: rest =>
    if c = '\n' then none
    else if d.isPrefixOf rest then some ([c], rest.drop d.length)
    else
      match scanClose d rest with
      | some (content, r2) => some (c :: content, r2)
      | none => none

/-- Third alternative `\*(.+?)\*` of the inline-format alternation. -/
def tryMatch3 (cs : List Char) : Option (Span × List Char) :=
  if ['*'].isPrefixOf cs then
    match scanClose ['*'] (cs.drop 1) with
    | some (content, rest) => some (.italic ⟨content⟩, rest)
    | none => none
  else none

/-- Second alternative `\*\*(.+?)\*\*`, falling through to the third. -/
def tryMatch2 (cs : List Char) : Option (Span × List Char) :=
  if ['*', '*'].isPrefixOf cs then
    match scanClose ['*', '*'] (cs.drop 2) with
    | some (content, rest) => some (.bold ⟨content⟩, rest)
    | none => tryMatch3 cs
  else tryMatch3 cs

/-- One attempt of the alternation
`(\*\*\*(.+?)\*\*\*)|(\*\*(.+?)\*\*)|(\*(.+?)\*)` at the current position,
alternatives tried in source order (longest marker first). -/
def tryMatch (cs : List Char) : Option (Span × List Char) :=
  if ['*', '*', '*'].isPrefixOf cs then
    match scanClose ['*', '*', '*'] (cs.drop 3) with
    | some (content, rest) => some (.boldItalic ⟨content⟩, rest)
    | none => tryMatch2 cs
  else tryMatch2 cs

/-- Pending plain text flushed as a `Plain` span (empty segments are
skipped, as in the source). -/
def flushPlain (acc : List Char) : List Span :=
  if acc.isEmpty then [] else [.plain ⟨acc.reverse⟩]

/-- Tokenizer main loop of `parseInlineFormatting`: `acc` holds the
(reversed) plain text since the last match; the fuel is initialised to the
input length and decreases once per step, which suffices since every step
consumes at least one input character. -/
def tokGo : Nat → List Char → List Char → List Span
  | _, acc, [] => flushPlain acc
  | 0, acc, cs => flushPlain (cs.reverse ++ acc)
  | fuel + 1, acc, c :: rest =>
    match tryMatch (c :: rest) with
    | some (sp, rest2) => flushPlain acc ++ sp :: tokGo fuel [] rest2
    | none => tokGo fuel (c :: acc) rest

/-- `FileWriter.parseInlineFormatting`: strip inline-code backticks, then
tokenize bold/italic markers; with no formatting the whole (possibly
empty) text is a single plain run. -/
def parseInlineFormatting (text : String) : List Span :=
  if (btGo none text.data).isEmpty then [Span.plain ⟨btGo none text.data⟩]
  else tokGo (btGo none text.data).length [] (btGo none text.data)

/-- Paragraph variants produced by `FileWriter.markdownToWordParagraphs`. -/
inductive Block where
  | blankPara
  | heading (level : Nat) (runs : List Span)
  | rulePara
  | quote (runs : List Span)
  | bullet (runs : List Span)
  | numbered (runs : List Span)
  | para (runs : List Span)
deriving DecidableEq

/-- Blank-line check `!line.trim()`. -/
def isBlankLine (l : List Char) : Bool := (jsTrimL l).isEmpty

/-- The heading chain of `markdownToWordParagraphs`, checked longest
first: `'###### '` down to `'# '`. -/
def headingLevel (l : List Char) : Option Nat :=
  if ("###### ".data).isPrefixOf l then some 6
  else if ("##### ".data).isPrefixOf l then some 5
  else if ("#### ".data).isPrefixOf l then some 4
  else if ("### ".data).isPrefixOf l then some 3
  else if ("## ".data).isPrefixOf l then some 2
  else if ("# ".data).isPrefixOf l then some 1
  else none

/-- `line.match(/^(\-{3,}|\*{3,}|_{3,})$/)`: a whole line of at least three
repeated `-`, `*` or `_`. -/
def isRuleLine (l : List Char) : Bool :=
  decide (3 ≤ l.length) &&
    (l.all (fun c => c = '-') || l.all (fun c => c = '*') || l.all (fun c => c = '_'))

/-- `line.startsWith('> ')`. -/
def isQuoteLine (l : List Char) : Bool := ("> ".data).isPrefixOf l

/-- `line.startsWith('- ') || line.startsWith('* ')`. -/
def isBulletLine (l : List Char) : Bool :=
  ("- ".data).isPrefixOf l || ("* ".data).isPrefixOf l

/-- `line.match(/^\d+\.\s/)`: the length of the numbered-list prefix
(digits, a dot, one whitespace character), stripped by
`line.replace(/^\d+\.\s/, '')`. -/
def numberedPrefixLen (l : List Char) : Option Nat :=
  let ds := l.takeWhile (fun c => c.isDigit)
  if ds.isEmpty then none
  else
    match l.drop ds.length with
    | '.' :: c :: _ => if isJsWs c then some (ds.length + 2) else none
    | _ => none

/-- Per-line classification of `FileWriter.markdownToWordParagraphs`, in
the source's check order: blank, H6..H1, rule, quote, bullet, numbered,
paragraph fallback. -/
def classifyLine (l : List Char) : Block :=
  if isBlankLine l then .blankPara
  else
    match headingLevel l with
    | some k => .heading k (parseInlineFormatting ⟨l.drop (k + 1)⟩)
    | none =>
      if isRuleLine l then .rulePara
      else if isQuoteLine l then .quote (parseInlineFormatting ⟨l.drop 2⟩)
      else if isBulletLine l then .bullet (parseInlineFormatting ⟨l.drop 2⟩)
      else
        match numberedPrefixLen l with
        | some n => .numbered (parseInlineFormatting ⟨l.drop n⟩)
        | none => .para (parseInlineFormatting ⟨l⟩)

/-- `FileWriter.markdownToWordParagraphs`: split on newlines, one
paragraph per line. -/
def markdownToWordParagraphs (markdown : String) : List Block :=
  (splitNl markdown.data).map classifyLine

/-- `FileWriter.saveAsMarkdown` file content: a preamble block with a
`description` field set to the summary, followed by the content
unchanged. -/
def saveAsMarkdown (content summary : String) : String :=
  "---\ndescription: " ++ summary ++ "\n---\n\n" ++ content

/-- C3: the lightMarkup rendition equals the preamble
`---\ndescription: <s>\n---\n\n` followed by the markup unchanged, and
dropping the preamble's characters recovers the markup byte-for-byte. -/
theorem c3_light_markup_round_trip (m s : String) :
    saveAsMarkdown m s = ("---\ndescription: " ++ s ++ "\n---\n\n") ++ m ∧
      (saveAsMarkdown m s).data.drop
          ("---\ndescription: " ++ s ++ "\n---\n\n").data.length = m.data := by
  constructor
  · rfl
  · have hdat : (saveAsMarkdown m s).data
        = ("---\ndescription: " ++ s ++ "\n---\n\n").data ++ m.data := by
      have : saveAsMarkdown m s = ("---\ndescription: " ++ s ++ "\n---\n\n") ++ m := rfl
      rw [this, String.data_append]
    rw [hdat, List.drop_left]

/-- C4: the markup parser is a total function producing exactly one Block
per input line, and any line matching none of the blank, heading, rule,
quote, bullet or numbered classifications becomes a Paragraph. -/
theorem c4_parser_total_one_block_per_line :
    (∀ markdown : String,
      (markdownToWordParagraphs markdown).length = (splitNl markdown.data).length) ∧
    (∀ l : List Char, isBlankLine l = false → headingLevel l = none →
      isRuleLine l = false → isQuoteLine l = false → isBulletLine l = false →
      numberedPrefixLen l = none →
      classifyLine l = .para (parseInlineFormatting ⟨l⟩)) := by
  constructor
  · intro markdown
    unfold markdownToWordParagraphs
    rw [List.length_map]
  · intro l h1 h2 h3 h4 h5 h6
    simp only [classifyLine, h1, h2, h3, h4, h5, h6, Bool.false_eq_true, if_false]

/-- Witness for C4 at a concrete two-line input and a concrete unmarked
line. -/
theorem c4_parser_total_witness :
    (markdownToWordParagraphs "# T\nhello").length = (splitNl "# T\nhello".data).length ∧
      classifyLine "just text".data = .para (parseInlineFormatting ⟨"just text".data⟩) :=
  ⟨c4_parser_total_one_block_per_line.1 "# T\nhello",
    c4_parser_total_one_block_per_line.2 "just text".data (by decide) (by decide)
      (by decide) (by decide) (by decide) (by decide)⟩

theorem btGo_no_bt (l : List Char) (h : '`' ∉ l) : btGo none l = l := by
  induction l with
  | nil => rfl
  | cons c rest ih =>
    have hc : ¬ c = '`' := fun habs => h (by simp [habs])
    simp only [btGo, hc, if_false]
    rw [ih (fun hm => h (by simp [hm]))]

theorem isPrefixOf_self (l : List Char) : l.isPrefixOf l = true := by
  induction l with
  | nil => rfl
  | cons a rest ih => simp [List.isPrefixOf, ih]

theorem isPrefixOf_cons_ne {a b : Char} (h : b ≠ a) (as bs : List Char) :
    (a :: as).isPrefixOf (b :: bs) = false := by
  simp only [List.isPrefixOf, Bool.and_eq_false_iff]
  left
  rw [beq_eq_false_iff_ne]
  exact fun habs => h habs.symm

theorem scanClose_clean (d0 : Char) (ds : List Char) :
    ∀ t, t ≠ [] → (∀ c ∈ t, c ≠ d0 ∧ c ≠ '\n') →
      scanClose (d0 :: ds) (t ++ d0 :: ds) = some (t, []) := by
  intro t
  induction t with
  | nil => intro h _; exact absurd rfl h
  | cons c t' ih =>
    intro _ hch
    have hc := hch c (by simp)
    have hshape : (c :: t') ++ d0 :: ds = c :: (t' ++ d0 :: ds) := by simp
    rw [hshape]
    simp only [scanClose]
    rw [if_neg hc.2]
    cases t' with
    | nil =>
      simp only [List.nil_append]
      rw [isPrefixOf_self]
      simp only [if_true]
      rw [List.drop_length]
    | cons u t'' =>
      have hu := hch u (by simp)
      have hpre : (d0 :: ds).isPrefixOf ((u :: t'') ++ d0 :: ds) = false := by
        have hsh2 : (u :: t'') ++ d0 :: ds = u :: (t'' ++ d0 :: ds) := by simp
        rw [hsh2]
        exact isPrefixOf_cons_ne hu.1 ds (t'' ++ d0 :: ds)
      rw [hpre]
      simp only [Bool.false_eq_true, if_false]
      rw [ih (by simp) (fun x hx => hch x (by simp [hx]))]

/-- C8: the spec's example tokenizes exactly as BoldItalic("a"),
Plain(" and "), Italic("b"), Plain(" and "), Bold("c"); and in general,
for any nonempty text free of asterisks, backticks and newlines,
`***x***` tokenizes as one BoldItalic span — never as an italic marker
around a bold span. -/
theorem mem_starred {c : Char} {y : List Char}
    (h : c ∈ '*' :: '*' :: '*' :: (y ++ ['*', '*', '*'])) : c = '*' ∨ c ∈ y := by
  rcases List.mem_cons.mp h with h1 | h
  · exact Or.inl h1
  rcases List.mem_cons.mp h with h1 | h
  · exact Or.inl h1
  rcases List.mem_cons.mp h with h1 | h
  · exact Or.inl h1
  rcases List.mem_append.mp h with h1 | h1
  · exact Or.inr h1
  · rcases List.mem_cons.mp h1 with h2 | h2
    · exact Or.inl h2
    rcases List.mem_cons.mp h2 with h3 | h3
    · exact Or.inl h3
    rcases List.mem_cons.mp h3 with h4 | h4
    · exact Or.inl h4
    · exact absurd h4 (List.not_mem_nil c)

theorem c8_inline_precedence :
    parseInlineFormatting "***a*** and *b* and **c**"
        = [Span.boldItalic "a", Span.plain " and ", Span.italic "b",
           Span.plain " and ", Span.bold "c"] ∧
      ∀ x : String, x ≠ "" →
        (∀ c ∈ x.data, c ≠ '*' ∧ c ≠ '`' ∧ c ≠ '\n') →
        parseInlineFormatting ("***" ++ x ++ "***") = [Span.boldItalic x] := by
  constructor
  · decide
  · intro x hx hch
    have hxd : x.data ≠ [] := by
      intro habs
      exact hx (by
        have hmk : x = String.mk x.data := rfl
        rw [hmk, habs])
    have hdat : ("***" ++ x ++ "***").data
        = '*' :: '*' :: '*' :: (x.data ++ ['*', '*', '*']) := by
      rw [String.data_append, String.data_append]
      rfl
    have hnb : '`' ∉ ("***" ++ x ++ "***").data := by
      rw [hdat]
      intro hmem
      rcases mem_starred hmem with h | h
      · exact absurd h (by decide)
      · exact (hch _ h).2.1 rfl
    have hbt : btGo none ("***" ++ x ++ "***").data = ("***" ++ x ++ "***").data :=
      btGo_no_bt _ hnb
    have hscan : scanClose ['*', '*', '*'] (x.data ++ ['*', '*', '*'])
        = some (x.data, []) :=
      scanClose_clean '*' ['*', '*'] x.data hxd
        (fun c hc => ⟨(hch c hc).1, (hch c hc).2.2⟩)
    have htm : tryMatch ('*' :: '*' :: '*' :: (x.data ++ ['*', '*', '*']))
        = some (.boldItalic x, []) := by
      unfold tryMatch
      have hpre : (['*', '*', '*'] : List Char).isPrefixOf
          ('*' :: '*' :: '*' :: (x.data ++ ['*', '*', '*'])) = true := by
        simp [List.isPrefixOf]
      rw [hpre]
      simp only [if_true, List.drop_succ_cons, List.drop_zero]
      rw [hscan]
    have htne : ¬ (("***" ++ x ++ "***").data).isEmpty = true := by
      rw [hdat]
      simp [List.isEmpty]
    unfold parseInlineFormatting
    rw [hbt]
    rw [if_neg htne]
    rw [hdat]
    have hlen : ('*' :: '*' :: '*' :: (x.data ++ ['*', '*', '*'])).length
        = (x.data.length + 6) := by
      simp
    rw [hlen]
    have hstep : tokGo (x.data.length + 6) [] ('*' :: '*' :: '*' :: (x.data ++ ['*', '*', '*']))
        = flushPlain [] ++ Span.boldItalic x :: tokGo (x.data.length + 5) [] [] := by
      show (match tryMatch ('*' :: '*' :: '*' :: (x.data ++ ['*', '*', '*'])) with
        | some (sp, rest2) => flushPlain [] ++ sp :: tokGo (x.data.length + 5) [] rest2
        | none => tokGo (x.data.length + 5) ['*'] ('*' :: '*' :: (x.data ++ ['*', '*', '*'])))
        = flushPlain [] ++ Span.boldItalic x :: tokGo (x.data.length + 5) [] []
      rw [htm]
    rw [hstep]
    have hrest : tokGo (x.data.length + 5) ([] : List Char) [] = flushPlain [] := rfl
    rw [hrest]
    simp [flushPlain, List.isEmpty]

/-- One attempt of `/^#{1,6}\s+(.+)$/m` at a line-start position,
returning the replacement (the captured group) and the rest of the input
after the match.  `#{1,6}` cannot usefully backtrack (the next character
would again be `#`), `\s+` is greedy across newlines and gives characters
back when `(.+)$` would otherwise fail, `.` does not match a newline and
`$` is a line end. -/
def tryHeaderAt (cs : List Char) : Option (List Char × List Char) :=
  let hashes := cs.takeWhile (fun c => c = '#')
  let k := hashes.length
  if 1 ≤ k ∧ k ≤ 6 then
    let afterH := cs.drop k
    let ws := afterH.takeWhile isJsWs
    let afterWs := afterH.drop ws.length
    if ws.isEmpty then none
    else
      match afterWs with
      | [] =>
        let rev := ws.reverse
        let nl := rev.takeWhile (fun c => c = '\n')
        let rest' := rev.drop nl.length
        if 2 ≤ rest'.length then
          match rest' with
          | g :: _ => some ([g], nl.reverse)
          | [] => none
        else none
      | _ :: _ =>
        let grp := afterWs.takeWhile (fun c => c ≠ '\n')
        some (grp, afterWs.drop grp.length)
  else none

/-- `plainText.replace(/^#{1,6}\s+(.+)$/gm, '$1')`: attempt a match at
each line start; after a match the scan resumes at the match end, which is
never a line start (the group ends with a non-newline character). -/
def hdrGo : Nat → Bool → List Char → List Char
  | _, _, [] => []
  | 0, _, cs => cs
  | fuel + 1, atStart, c :: rest =>
    if atStart then
      match tryHeaderAt (c :: rest) with
      | some (grp, rest2) => grp ++ hdrGo fuel false rest2
      | none => c :: hdrGo fuel (c = '\n') rest
    else c :: hdrGo fuel (c = '\n') rest

/-- Header-marker stripping stage of `saveAsText`. -/
def stripHeaders (cs : List Char) : List Char := hdrGo cs.length true cs

/-- Generic `text.replace(re, '$1')` for `re` one of
`/\*\*\*(.+?)\*\*\*/g`, `/\*\*(.+?)\*\*/g`, `/\*(.+?)\*/g`, and the
backtick pattern of `saveAsText`: at each position, if the opening
delimiter matches and a lazy close is found, the delimiters are dropped;
otherwise the character is copied. -/
def replGo (d : List Char) : Nat → List Char → List Char
  | _, [] => []
  | 0, cs => cs
  | fuel + 1, c :: rest =>
    if d.isPrefixOf (c :: rest) then
      match scanClose d ((c :: rest).drop d.length) with
      | some (content, rest2) => content ++ replGo d fuel rest2
      | none => c :: replGo d fuel rest
    else c :: replGo d fuel rest

/-- One delimiter-stripping stage of `saveAsText`. -/
def replDelim (d : List Char) (cs : List Char) : List Char := replGo d cs.length cs

/-- Head-is-whitespace test for the bullet pattern's `\s+`. -/
def headIsWs : List Char → Bool
  | c :: _ => isJsWs c
  | [] => false

/-- `plainText.replace(/^[*-]\s+/gm, '- ')`: at a line start, a `*` or `-`
followed by whitespace (greedy, possibly spanning newlines) becomes the
literal `- `; the next position is a line start iff the last consumed
whitespace character was a newline. -/
def bulGo : Nat → Bool → List Char → List Char
  | _, _, [] => []
  | 0, _, cs => cs
  | fuel + 1, atStart, c :: rest =>
    if atStart && (decide (c = '*') || decide (c = '-')) && headIsWs rest then
      '-' :: ' ' :: bulGo fuel
        (decide ((rest.takeWhile isJsWs).getLastD ' ' = '\n'))
        (rest.drop (rest.takeWhile isJsWs).length)
    else c :: bulGo fuel (decide (c = '\n')) rest

/-- Bullet-normalisation stage of `saveAsText`. -/
def normalizeBullets (cs : List Char) : List Char := bulGo cs.length true cs

/-- The marker-stripping pipeline of `FileWriter.saveAsText`, in source
order: headers, `***`, `**`, `*`, backticks, bullets. -/
def plainTransform (cs : List Char) : List Char :=
  normalizeBullets (replDelim ['`']
    (replDelim ['*'] (replDelim ['*', '*'] (replDelim ['*', '*', '*']
      (stripHeaders cs)))))

/-- `FileWriter.saveAsText` file content: a `SUMMARY:` banner line, an
80-character `=` separator, a blank line, then the marker-stripped
content. -/
def saveAsText (content summary : String) : String :=
  "SUMMARY: " ++ summary ++ "\n" ++ String.mk (List.replicate 80 '=') ++ "\n\n"
    ++ String.mk (plainTransform content.data)

/-- Marker-free text: nonempty, made of letters and spaces, beginning
with a letter. -/
def tameText (t : List Char) : Prop :=
  t ≠ [] ∧ (∀ c ∈ t, c.isAlpha = true ∨ c = ' ') ∧ (t.headD ' ').isAlpha = true

theorem tame_char {c : Char} (h : c.isAlpha = true ∨ c = ' ') :
    c ≠ '#' ∧ c ≠ '*' ∧ c ≠ '-' ∧ c ≠ '`' ∧ c ≠ '\n' := by
  rcases h with h | h
  · refine ⟨?_, ?_, ?_, ?_, ?_⟩ <;> (intro habs; subst habs; exact absurd h (by decide))
  · subst h
    exact ⟨by decide, by decide, by decide, by decide, by decide⟩

theorem alpha_not_ws {c : Char} (h : c.isAlpha = true) : isJsWs c = false := by
  cases hw : isJsWs c
  · rfl
  · exfalso
    simp only [isJsWs, Bool.or_eq_true, decide_eq_true_eq] at hw
    rcases hw with ((((h1 | h1) | h1) | h1) | h1) | h1 <;>
      (subst h1; exact absurd h (by decide))

theorem hdrGo_no_hash (cs : List Char) (h : '#' ∉ cs) :
    ∀ fuel b, hdrGo fuel b cs = cs := by
  induction cs with
  | nil => intro fuel b; cases fuel <;> rfl
  | cons c rest ih =>
    intro fuel b
    cases fuel with
    | zero => rfl
    | succ f =>
      have hc : c ≠ '#' := fun habs => h (by simp [habs])
      have hrest : '#' ∉ rest := fun hm => h (by simp [hm])
      cases b with
      | false =>
        simp only [hdrGo, Bool.false_eq_true, if_false]
        rw [ih hrest f (decide (c = '\n'))]
      | true =>
        have hth : tryHeaderAt (c :: rest) = none := by
          simp [tryHeaderAt, List.takeWhile, hc]
        simp only [hdrGo, if_true, hth]
        rw [ih hrest f (decide (c = '\n'))]

theorem replGo_no_open (d0 : Char) (ds : List Char) (cs : List Char)
    (h : ∀ c ∈ cs, c ≠ d0) : ∀ fuel, replGo (d0 :: ds) fuel cs = cs := by
  induction cs with
  | nil => intro fuel; cases fuel <;> rfl
  | cons c rest ih =>
    intro fuel
    cases fuel with
    | zero => rfl
    | succ f =>
      have hpre : (d0 :: ds).isPrefixOf (c :: rest) = false :=
        isPrefixOf_cons_ne (h c (by simp)) ds rest
      simp only [replGo, hpre, Bool.false_eq_true, if_false]
      rw [ih (fun x hx => h x (by simp [hx])) f]

theorem scanClose_no_close (d0 : Char) (ds : List Char) (cs : List Char)
    (h : ∀ c ∈ cs, c ≠ d0) : scanClose (d0 :: ds) cs = none := by
  induction cs with
  | nil => rfl
  | cons c rest ih =>
    by_cases hc : c = '\n'
    · simp only [scanClose, hc, if_true]
    · have hpre : (d0 :: ds).isPrefixOf rest = false := by
        cases rest with
        | nil => rfl
        | cons u rs => exact isPrefixOf_cons_ne (h u (by simp)) ds rs
      simp only [scanClose, hc, if_false, hpre, Bool.false_eq_true]
      rw [ih (fun x hx => h x (by simp [hx]))]

theorem bulGo_no_marker (cs : List Char) (h : ∀ c ∈ cs, c ≠ '*' ∧ c ≠ '-') :
    ∀ fuel b, bulGo fuel b cs = cs := by
  induction cs with
  | nil => intro fuel b; cases fuel <;> rfl
  | cons c rest ih =>
    intro fuel b
    cases fuel with
    | zero => rfl
    | succ f =>
      have hc := h c (by simp)
      have hcond : (b && (decide (c = '*') || decide (c = '-')) && headIsWs rest)
          = false := by
        rw [decide_eq_false hc.1, decide_eq_false hc.2]
        simp
      simp only [bulGo, hcond, Bool.false_eq_true, if_false]
      rw [ih (fun x hx => h x (by simp [hx])) f (decide (c = '\n'))]

theorem isPrefixOf_append_self (d r : List Char) : d.isPrefixOf (d ++ r) = true := by
  induction d with
  | nil => cases r <;> rfl
  | cons a as ih => simp [List.isPrefixOf, ih]

theorem replGo_append_no_head (d0 : Char) (ds : List Char) (t r : List Char)
    (h : ∀ c ∈ t, c ≠ d0) :
    ∀ fuel, t.length ≤ fuel →
      replGo (d0 :: ds) fuel (t ++ r) = t ++ replGo (d0 :: ds) (fuel - t.length) r := by
  induction t with
  | nil => intro fuel _; simp
  | cons c t' ih =>
    intro fuel hfuel
    cases fuel with
    | zero => simp at hfuel
    | succ f =>
      have hpre : (d0 :: ds).isPrefixOf ((c :: t') ++ r) = false := by
        have hsh : (c :: t') ++ r = c :: (t' ++ r) := by simp
        rw [hsh]
        exact isPrefixOf_cons_ne (h c (by simp)) ds (t' ++ r)
      have hsh : (c :: t') ++ r = c :: (t' ++ r) := by simp
      rw [hsh] at hpre ⊢
      simp only [replGo, hpre, Bool.false_eq_true, if_false]
      rw [ih (fun x hx => h x (by simp [hx])) f (by simp at hfuel; omega)]
      have harith : f - t'.length = Nat.succ f - (c :: t').length := by
        simp
      rw [harith]
      simp

theorem takeWhile_all {p : Char → Bool} {l : List Char}
    (h : ∀ c ∈ l, p c = true) : l.takeWhile p = l := by
  induction l with
  | nil => rfl
  | cons c rest ih =>
    have hc := h c (by simp)
    simp only [List.takeWhile, hc, if_true]
    rw [ih (fun x hx => h x (by simp [hx]))]

theorem takeWhile_hash_replicate (t : List Char) (ht : t.headD '#' ≠ '#') :
    ∀ k, (List.replicate k '#' ++ t).takeWhile (fun c => c = '#')
      = List.replicate k '#' := by
  intro k
  induction k with
  | zero =>
    simp only [List.replicate, List.nil_append]
    cases t with
    | nil => rfl
    | cons c rest =>
      have hc : ¬ c = '#' := by simpa [List.headD] using ht
      simp [List.takeWhile, hc]
  | succ k ih =>
    have hsh : List.replicate (k + 1) '#' ++ t = '#' :: (List.replicate k '#' ++ t) := by
      simp [List.replicate_succ]
    rw [hsh]
    have hstep : ('#' :: (List.replicate k '#' ++ t)).takeWhile (fun c => c = '#')
        = '#' :: (List.replicate k '#' ++ t).takeWhile (fun c => c = '#') := by
      simp [List.takeWhile_cons]
    rw [hstep, ih]
    simp [List.replicate_succ]

theorem tryHeaderAt_heading (k : Nat) (h1 : 1 ≤ k) (h6 : k ≤ 6) (t : List Char)
    (htame : tameText t) :
    tryHeaderAt (List.replicate k '#' ++ ' ' :: t) = some (t, []) := by
  obtain ⟨htne, htch, hthead⟩ := htame
  obtain ⟨c0, t', ht0⟩ : ∃ c0 t', t = c0 :: t' := by
    cases t with
    | nil => exact absurd rfl htne
    | cons a l => exact ⟨a, l, rfl⟩
  have hhead : c0.isAlpha = true := by
    rw [ht0] at hthead
    simp [List.headD] at hthead
    exact hthead
  have htw : (List.replicate k '#' ++ ' ' :: t).takeWhile (fun c => c = '#')
      = List.replicate k '#' :=
    takeWhile_hash_replicate (' ' :: t) (by simp [List.headD]) k
  have hdropk : (List.replicate k '#' ++ ' ' :: t).drop k = ' ' :: t := by
    have hdl := List.drop_left (List.replicate k '#') (' ' :: t)
    rw [List.length_replicate] at hdl
    exact hdl
  have hws : (' ' :: t).takeWhile isJsWs = [' '] := by
    rw [ht0]
    simp only [List.takeWhile]
    rw [show isJsWs ' ' = true from rfl, alpha_not_ws hhead]
  have hafter : (' ' :: t).drop 1 = t := rfl
  have hgrp : t.takeWhile (fun c => c ≠ '\n') = t := by
    apply takeWhile_all
    intro c hc
    have := (tame_char (htch c hc)).2.2.2.2
    simpa using this
  simp only [tryHeaderAt, htw, List.length_replicate, hdropk, hws]
  rw [if_pos ⟨h1, h6⟩]
  simp only [List.length_cons, List.length_nil, hafter]
  rw [ht0]
  simp only [List.isEmpty, Bool.false_eq_true, if_false]
  rw [← ht0, hgrp]
  rw [List.drop_length]

theorem stripHeaders_heading (k : Nat) (h1 : 1 ≤ k) (h6 : k ≤ 6) (t : List Char)
    (htame : tameText t) :
    stripHeaders (List.replicate k '#' ++ ' ' :: t) = t := by
  unfold stripHeaders
  cases hlen : (List.replicate k '#' ++ ' ' :: t).length with
  | zero =>
    exfalso
    simp at hlen
  | succ f =>
    cases hcs : List.replicate k '#' ++ ' ' :: t with
    | nil =>
      exfalso
      cases k with
      | zero => simp at hcs
      | succ k' => rw [List.replicate_succ] at hcs; simp at hcs
    | cons c rest =>
      have hth : tryHeaderAt (c :: rest) = some (t, []) := by
        rw [← hcs]
        exact tryHeaderAt_heading k h1 h6 t htame
      simp only [hdrGo, if_true, hth]
      simp

theorem replGo_id_of_no_match (d : List Char) :
    ∀ cs, (∀ i, d.isPrefixOf (cs.drop i) = false) → ∀ fuel, replGo d fuel cs = cs := by
  intro cs
  induction cs with
  | nil => intro _ fuel; cases fuel <;> rfl
  | cons c rest ih =>
    intro h fuel
    cases fuel with
    | zero => rfl
    | succ f =>
      have h0 : d.isPrefixOf (c :: rest) = false := by
        have hd := h 0
        simpa using hd
      simp only [replGo, h0, Bool.false_eq_true, if_false]
      rw [ih (fun i => by have hd := h (i + 1); simpa using hd) f]

theorem no_match_in_starless_append (d0 d1 : Char) (ds2 : List Char) (t r : List Char)
    (hch : ∀ c ∈ t, c ≠ d0)
    (hr : ∀ i, (d0 :: d1 :: ds2).isPrefixOf (r.drop i) = false) :
    ∀ i, (d0 :: d1 :: ds2).isPrefixOf ((t ++ r).drop i) = false := by
  induction t with
  | nil => intro i; simpa using hr i
  | cons c t' ih =>
    intro i
    cases i with
    | zero =>
      have hsh : ((c :: t') ++ r).drop 0 = c :: (t' ++ r) := by simp
      rw [hsh]
      exact isPrefixOf_cons_ne (hch c (by simp)) _ _
    | succ i' =>
      have hsh : ((c :: t') ++ r).drop (i' + 1) = (t' ++ r).drop i' := by simp
      rw [hsh]
      exact ih (fun x hx => hch x (by simp [hx])) i'

theorem hr_two_stars :
    ∀ i, (['*', '*', '*'] : List Char).isPrefixOf ((['*', '*'] : List Char).drop i)
      = false := by
  intro i
  match i with
  | 0 => decide
  | 1 => decide
  | n + 2 =>
    have hd : (['*', '*'] : List Char).drop (n + 2) = [] :=
      List.drop_eq_nil_of_le (by simp)
    rw [hd]
    rfl

theorem hr_one_star (ds2 : List Char) :
    ∀ i, ('*' :: '*' :: ds2).isPrefixOf ((['*'] : List Char).drop i) = false := by
  intro i
  match i with
  | 0 =>
    show ('*' :: '*' :: ds2).isPrefixOf ['*'] = false
    simp [List.isPrefixOf]
  | n + 1 =>
    have hd : (['*'] : List Char).drop (n + 1) = [] :=
      List.drop_eq_nil_of_le (by simp)
    rw [hd]
    rfl

theorem exists_cons_of_ne_nil {t : List Char} (h : t ≠ []) :
    ∃ c0 t', t = c0 :: t' := by
  cases t with
  | nil => exact absurd rfl h
  | cons a l => exact ⟨a, l, rfl⟩

theorem no_match3_bold (t : List Char) (hne : t ≠ []) (hch : ∀ c ∈ t, c ≠ '*') :
    ∀ i, (['*', '*', '*'] : List Char).isPrefixOf
      (('*' :: '*' :: (t ++ ['*', '*'])).drop i) = false := by
  obtain ⟨c0, t', ht0⟩ := exists_cons_of_ne_nil hne
  have hc0 : c0 ≠ '*' := hch c0 (by rw [ht0]; simp)
  intro i
  match i with
  | 0 =>
    rw [ht0]
    show (['*', '*', '*'] : List Char).isPrefixOf
      ('*' :: '*' :: ((c0 :: t') ++ ['*', '*'])) = false
    have hsh : (c0 :: t') ++ ['*', '*'] = c0 :: (t' ++ ['*', '*']) := by simp
    rw [hsh]
    simp [List.isPrefixOf, Ne.symm hc0]
  | 1 =>
    rw [ht0]
    show (['*', '*', '*'] : List Char).isPrefixOf
      ('*' :: ((c0 :: t') ++ ['*', '*'])) = false
    have hsh : (c0 :: t') ++ ['*', '*'] = c0 :: (t' ++ ['*', '*']) := by simp
    rw [hsh]
    simp [List.isPrefixOf, Ne.symm hc0]
  | n + 2 =>
    show (['*', '*', '*'] : List Char).isPrefixOf ((t ++ ['*', '*']).drop n) = false
    exact no_match_in_starless_append '*' '*' ['*'] t ['*', '*'] hch hr_two_stars n

theorem no_match_star_italic (ds2 : List Char) (t : List Char) (hne : t ≠ [])
    (hch : ∀ c ∈ t, c ≠ '*') :
    ∀ i, ('*' :: '*' :: ds2).isPrefixOf (('*' :: (t ++ ['*'])).drop i) = false := by
  obtain ⟨c0, t', ht0⟩ := exists_cons_of_ne_nil hne
  have hc0 : c0 ≠ '*' := hch c0 (by rw [ht0]; simp)
  intro i
  match i with
  | 0 =>
    rw [ht0]
    show ('*' :: '*' :: ds2).isPrefixOf ('*' :: ((c0 :: t') ++ ['*'])) = false
    have hsh : (c0 :: t') ++ ['*'] = c0 :: (t' ++ ['*']) := by simp
    rw [hsh]
    simp [List.isPrefixOf, Ne.symm hc0]
  | n + 1 =>
    show ('*' :: '*' :: ds2).isPrefixOf ((t ++ ['*']).drop n) = false
    exact no_match_in_starless_append '*' '*' ds2 t ['*'] hch (hr_one_star ds2) n

theorem replDelim_wrap (d0 : Char) (ds t : List Char) (hne : t ≠ [])
    (hch : ∀ c ∈ t, c ≠ d0 ∧ c ≠ '\n') :
    replDelim (d0 :: ds) ((d0 :: ds) ++ t ++ (d0 :: ds)) = t := by
  unfold replDelim
  have hpre : (d0 :: ds).isPrefixOf ((d0 :: ds) ++ t ++ (d0 :: ds)) = true := by
    rw [List.append_assoc]
    exact isPrefixOf_append_self (d0 :: ds) (t ++ (d0 :: ds))
  have hdrop : ((d0 :: ds) ++ t ++ (d0 :: ds)).drop (d0 :: ds).length
      = t ++ (d0 :: ds) := by
    rw [List.append_assoc]
    exact List.drop_left (d0 :: ds) (t ++ (d0 :: ds))
  have hscan := scanClose_clean d0 ds t hne hch
  cases hlen : ((d0 :: ds) ++ t ++ (d0 :: ds)).length with
  | zero => simp at hlen
  | succ f =>
    have hsh : (d0 :: ds) ++ t ++ (d0 :: ds) = d0 :: (ds ++ t ++ (d0 :: ds)) := by simp
    rw [hsh] at hpre hdrop ⊢
    simp only [replGo, hpre, if_true]
    rw [hdrop, hscan]
    simp [replGo]

theorem star1_bullet_go (c0 : Char) (hc0 : c0 ≠ '*')
    (t : List Char) (hch : ∀ c ∈ t, c ≠ '*') :
    ∀ fuel, replGo ['*'] fuel ('*' :: c0 :: t) = '*' :: c0 :: t := by
  intro fuel
  cases fuel with
  | zero => rfl
  | succ f =>
    have hpre : (['*'] : List Char).isPrefixOf ('*' :: c0 :: t) = true := by
      simp [List.isPrefixOf]
    have hnostar : ∀ c ∈ c0 :: t, c ≠ '*' := by
      intro c hc
      rcases List.mem_cons.mp hc with h | h
      · subst h; exact hc0
      · exact hch c h
    have hscan : scanClose ['*'] (c0 :: t) = none :=
      scanClose_no_close '*' [] (c0 :: t) hnostar
    simp only [replGo, hpre, if_true]
    rw [show (('*' :: c0 :: t).drop (['*'] : List Char).length) = c0 :: t from rfl]
    rw [hscan]
    rw [replGo_no_open '*' [] (c0 :: t) hnostar f]

theorem tame_not_mem {t : List Char} (htch : ∀ c ∈ t, c.isAlpha = true ∨ c = ' ') :
    '#' ∉ t ∧ '`' ∉ t ∧ '\n' ∉ t ∧ (∀ c ∈ t, c ≠ '*') ∧ (∀ c ∈ t, c ≠ '*' ∧ c ≠ '-') := by
  refine ⟨?_, ?_, ?_, ?_, ?_⟩
  · intro hm; exact (tame_char (htch _ hm)).1 rfl
  · intro hm; exact (tame_char (htch _ hm)).2.2.2.1 rfl
  · intro hm; exact (tame_char (htch _ hm)).2.2.2.2 rfl
  · intro c hc; exact (tame_char (htch c hc)).2.1
  · intro c hc; exact ⟨(tame_char (htch c hc)).2.1, (tame_char (htch c hc)).2.2.1⟩

theorem not_mem_append₃ {x : Char} {pre t post : List Char}
    (h1 : x ∉ pre) (h2 : x ∉ t) (h3 : x ∉ post) : x ∉ pre ++ t ++ post := by
  intro hm
  rcases List.mem_append.mp hm with h | h
  · rcases List.mem_append.mp h with h' | h'
    · exact h1 h'
    · exact h2 h'
  · exact h3 h

theorem plainTransform_tame_id (t : List Char)
    (htch : ∀ c ∈ t, c.isAlpha = true ∨ c = ' ') : plainTransform t = t := by
  obtain ⟨hhash, hbt, -, hstar, hmark⟩ := tame_not_mem htch
  unfold plainTransform stripHeaders replDelim normalizeBullets
  rw [hdrGo_no_hash t hhash t.length true]
  rw [replGo_no_open '*' ['*', '*'] t hstar t.length]
  rw [replGo_no_open '*' ['*'] t hstar t.length]
  rw [replGo_no_open '*' [] t hstar t.length]
  rw [replGo_no_open '`' [] t (fun c hc habs => hbt (by rw [habs] at hc; exact hc)) t.length]
  rw [bulGo_no_marker t hmark t.length true]
theorem stripHeaders_id {cs : List Char} (h : '#' ∉ cs) : stripHeaders cs = cs := by
  unfold stripHeaders
  rw [hdrGo_no_hash cs h cs.length true]

theorem replDelim_id_no_open {d0 : Char} {ds cs : List Char}
    (h : ∀ c ∈ cs, c ≠ d0) : replDelim (d0 :: ds) cs = cs := by
  unfold replDelim
  rw [replGo_no_open d0 ds cs h cs.length]

theorem replDelim_id_no_match {d : List Char} {cs : List Char}
    (h : ∀ i, d.isPrefixOf (cs.drop i) = false) : replDelim d cs = cs := by
  unfold replDelim
  rw [replGo_id_of_no_match d cs h cs.length]

theorem normalizeBullets_id {cs : List Char} (h : ∀ c ∈ cs, c ≠ '*' ∧ c ≠ '-') :
    normalizeBullets cs = cs := by
  unfold normalizeBullets
  rw [bulGo_no_marker cs h cs.length true]

theorem replDelim_star1_skip (c0 : Char) (hc0 : c0 ≠ '*')
    {t : List Char} (hch : ∀ c ∈ t, c ≠ '*') :
    replDelim ['*'] ('*' :: c0 :: t) = '*' :: c0 :: t := by
  unfold replDelim
  rw [star1_bullet_go c0 hc0 t hch _]

theorem no_match_starless (d0 d1 : Char) (ds2 : List Char) (cs : List Char)
    (hch : ∀ c ∈ cs, c ≠ d0) :
    ∀ i, (d0 :: d1 :: ds2).isPrefixOf (cs.drop i) = false := by
  induction cs with
  | nil => intro i; rw [List.drop_nil]; rfl
  | cons c rest ih =>
    intro i
    cases i with
    | zero =>
      show (d0 :: d1 :: ds2).isPrefixOf (c :: rest) = false
      exact isPrefixOf_cons_ne (hch c (by simp)) _ _
    | succ i' =>
      show (d0 :: d1 :: ds2).isPrefixOf (rest.drop i') = false
      exact ih (fun x hx => hch x (by simp [hx])) i'

theorem no_match_star_bullet (ds2 : List Char) (t : List Char)
    (hch : ∀ c ∈ t, c ≠ '*') :
    ∀ i, ('*' :: '*' :: ds2).isPrefixOf (('*' :: ' ' :: t).drop i) = false := by
  have hstarless : ∀ c ∈ ' ' :: t, c ≠ '*' := by
    intro c hc
    rcases List.mem_cons.mp hc with h | h
    · subst h; decide
    · exact hch c h
  intro i
  cases i with
  | zero =>
    show ('*' :: '*' :: ds2).isPrefixOf ('*' :: ' ' :: t) = false
    simp [List.isPrefixOf]
  | succ i' =>
    show ('*' :: '*' :: ds2).isPrefixOf ((' ' :: t).drop i') = false
    exact no_match_starless '*' '*' ds2 (' ' :: t) hstarless i'

theorem normalizeBullets_bullet (c0 : Char) (hc0 : c0 = '*' ∨ c0 = '-')
    (t : List Char) (htame : tameText t) :
    normalizeBullets (c0 :: ' ' :: t) = '-' :: ' ' :: t := by
  obtain ⟨htne, htch, hthead⟩ := htame
  obtain ⟨a, t', ht0⟩ := exists_cons_of_ne_nil htne
  have hahead : a.isAlpha = true := by
    rw [ht0] at hthead
    simp [List.headD] at hthead
    exact hthead
  obtain ⟨-, -, -, -, hmark⟩ := tame_not_mem htch
  unfold normalizeBullets
  have hlen : (c0 :: ' ' :: t).length = (t.length + 1) + 1 := by simp
  rw [hlen]
  have hcond : (true && (decide (c0 = '*') || decide (c0 = '-')) && headIsWs (' ' :: t))
      = true := by
    rcases hc0 with h | h <;> subst h <;> rfl
  simp only [bulGo, hcond, if_true]
  have hws : (' ' :: t).takeWhile isJsWs = [' '] := by
    rw [ht0]
    simp only [List.takeWhile]
    rw [show isJsWs ' ' = true from rfl, alpha_not_ws hahead]
  rw [hws]
  have hlast : decide (List.getLastD [' '] ' ' = '\n') = false := by decide
  rw [hlast]
  have hdrop : (' ' :: t).drop ([' '] : List Char).length = t := by simp
  rw [hdrop]
  rw [bulGo_no_marker t hmark (t.length + 1) false]

theorem plainTransform_heading (k : Nat) (h1 : 1 ≤ k) (h6 : k ≤ 6) (t : List Char)
    (htame : tameText t) :
    plainTransform (List.replicate k '#' ++ ' ' :: t) = t := by
  have htch := htame.2.1
  obtain ⟨hhash, -, -, -, -⟩ := tame_not_mem htch
  unfold plainTransform
  rw [stripHeaders_heading k h1 h6 t htame]
  have hrest := plainTransform_tame_id t htch
  unfold plainTransform at hrest
  rw [stripHeaders_id hhash] at hrest
  exact hrest

theorem plainTransform_bold (t : List Char) (htame : tameText t) :
    plainTransform ('*' :: '*' :: (t ++ ['*', '*'])) = t := by
  obtain ⟨htne, htch, -⟩ := htame
  obtain ⟨hhash, hbt, hnl, hstar, hmark⟩ := tame_not_mem htch
  have hh : '#' ∉ '*' :: '*' :: (t ++ ['*', '*']) := by
    intro hm
    rcases List.mem_cons.mp hm with h | hm2
    · exact absurd h (by decide)
    rcases List.mem_cons.mp hm2 with h | hm3
    · exact absurd h (by decide)
    rcases List.mem_append.mp hm3 with h | h
    · exact hhash h
    · exact absurd h (by decide)
  unfold plainTransform
  rw [stripHeaders_id hh]
  rw [replDelim_id_no_match (no_match3_bold t htne hstar)]
  have hsh : '*' :: '*' :: (t ++ ['*', '*'])
      = (['*', '*'] : List Char) ++ t ++ ['*', '*'] := by simp
  rw [hsh]
  rw [replDelim_wrap '*' ['*'] t htne
    (fun c hc => ⟨hstar c hc, fun habs => hnl (by rw [habs] at hc; exact hc)⟩)]
  rw [replDelim_id_no_open hstar]
  rw [replDelim_id_no_open (fun c hc habs => hbt (by rw [habs] at hc; exact hc))]
  rw [normalizeBullets_id hmark]

theorem plainTransform_italic (t : List Char) (htame : tameText t) :
    plainTransform ('*' :: (t ++ ['*'])) = t := by
  obtain ⟨htne, htch, -⟩ := htame
  obtain ⟨hhash, hbt, hnl, hstar, hmark⟩ := tame_not_mem htch
  have hh : '#' ∉ '*' :: (t ++ ['*']) := by
    intro hm
    rcases List.mem_cons.mp hm with h | hm2
    · exact absurd h (by decide)
    rcases List.mem_append.mp hm2 with h | h
    · exact hhash h
    · exact absurd h (by decide)
  unfold plainTransform
  rw [stripHeaders_id hh]
  rw [replDelim_id_no_match (no_match_star_italic ['*'] t htne hstar)]
  rw [replDelim_id_no_match (no_match_star_italic [] t htne hstar)]
  have hsh : '*' :: (t ++ ['*']) = (['*'] : List Char) ++ t ++ ['*'] := by simp
  rw [hsh]
  rw [replDelim_wrap '*' [] t htne
    (fun c hc => ⟨hstar c hc, fun habs => hnl (by rw [habs] at hc; exact hc)⟩)]
  rw [replDelim_id_no_open (fun c hc habs => hbt (by rw [habs] at hc; exact hc))]
  rw [normalizeBullets_id hmark]

theorem plainTransform_code (t : List Char) (htame : tameText t) :
    plainTransform ('`' :: (t ++ ['`'])) = t := by
  obtain ⟨htne, htch, -⟩ := htame
  obtain ⟨hhash, hbt, hnl, hstar, hmark⟩ := tame_not_mem htch
  have hh : '#' ∉ '`' :: (t ++ ['`']) := by
    intro hm
    rcases List.mem_cons.mp hm with h | hm2
    · exact absurd h (by decide)
    rcases List.mem_append.mp hm2 with h | h
    · exact hhash h
    · exact absurd h (by decide)
  have hnostar : ∀ c ∈ '`' :: (t ++ ['`']), c ≠ '*' := by
    intro c hc
    rcases List.mem_cons.mp hc with h | hm2
    · subst h; decide
    rcases List.mem_append.mp hm2 with h | h
    · exact hstar c h
    · rcases List.mem_cons.mp h with h' | h'
      · subst h'; decide
      · exact absurd h' (List.not_mem_nil c)
  unfold plainTransform
  rw [stripHeaders_id hh]
  rw [replDelim_id_no_open hnostar]
  rw [replDelim_id_no_open hnostar]
  rw [replDelim_id_no_open hnostar]
  have hsh : '`' :: (t ++ ['`']) = (['`'] : List Char) ++ t ++ ['`'] := by simp
  rw [hsh]
  rw [replDelim_wrap '`' [] t htne
    (fun c hc => ⟨(tame_char (htch c hc)).2.2.2.1, (tame_char (htch c hc)).2.2.2.2⟩)]
  rw [normalizeBullets_id hmark]

theorem plainTransform_bullet_star (t : List Char) (htame : tameText t) :
    plainTransform ('*' :: ' ' :: t) = '-' :: ' ' :: t := by
  have htch := htame.2.1
  obtain ⟨hhash, hbt, -, hstar, -⟩ := tame_not_mem htch
  have hh : '#' ∉ '*' :: ' ' :: t := by
    intro hm
    rcases List.mem_cons.mp hm with h | hm2
    · exact absurd h (by decide)
    rcases List.mem_cons.mp hm2 with h | h
    · exact absurd h (by decide)
    · exact hhash h
  have hnb : ∀ c ∈ '*' :: ' ' :: t, c ≠ '`' := by
    intro c hc
    rcases List.mem_cons.mp hc with h | hm2
    · subst h; decide
    rcases List.mem_cons.mp hm2 with h | h
    · subst h; decide
    · exact (tame_char (htch c h)).2.2.2.1
  unfold plainTransform
  rw [stripHeaders_id hh]
  rw [replDelim_id_no_match (no_match_star_bullet ['*'] t hstar)]
  rw [replDelim_id_no_match (no_match_star_bullet [] t hstar)]
  rw [replDelim_star1_skip ' ' (by decide) hstar]
  rw [replDelim_id_no_open hnb]
  rw [normalizeBullets_bullet '*' (Or.inl rfl) t htame]

theorem plainTransform_bullet_dash (t : List Char) (htame : tameText t) :
    plainTransform ('-' :: ' ' :: t) = '-' :: ' ' :: t := by
  have htch := htame.2.1
  obtain ⟨hhash, hbt, -, hstar, -⟩ := tame_not_mem htch
  have hh : '#' ∉ '-' :: ' ' :: t := by
    intro hm
    rcases List.mem_cons.mp hm with h | hm2
    · exact absurd h (by decide)
    rcases List.mem_cons.mp hm2 with h | h
    · exact absurd h (by decide)
    · exact hhash h
  have hnostar : ∀ c ∈ '-' :: ' ' :: t, c ≠ '*' := by
    intro c hc
    rcases List.mem_cons.mp hc with h | hm2
    · subst h; decide
    rcases List.mem_cons.mp hm2 with h | h
    · subst h; decide
    · exact hstar c h
  have hnb : ∀ c ∈ '-' :: ' ' :: t, c ≠ '`' := by
    intro c hc
    rcases List.mem_cons.mp hc with h | hm2
    · subst h; decide
    rcases List.mem_cons.mp hm2 with h | h
    · subst h; decide
    · exact (tame_char (htch c h)).2.2.2.1
  unfold plainTransform
  rw [stripHeaders_id hh]
  rw [replDelim_id_no_open hnostar]
  rw [replDelim_id_no_open hnostar]
  rw [replDelim_id_no_open hnostar]
  rw [replDelim_id_no_open hnb]
  rw [normalizeBullets_bullet '-' (Or.inr rfl) t htame]

theorem plainTransform_quote (t : List Char) (htame : tameText t) :
    plainTransform ('>' :: ' ' :: t) = '>' :: ' ' :: t := by
  obtain ⟨htne, htch, -⟩ := htame
  obtain ⟨hhash, hbt, -, hstar, hmark⟩ := tame_not_mem htch
  have hh : '#' ∉ '>' :: ' ' :: t := by
    intro hm
    rcases List.mem_cons.mp hm with h | hm2
    · exact absurd h (by decide)
    rcases List.mem_cons.mp hm2 with h | h
    · exact absurd h (by decide)
    · exact hhash h
  have hnostar : ∀ c ∈ '>' :: ' ' :: t, c ≠ '*' := by
    intro c hc
    rcases List.mem_cons.mp hc with h | hm2
    · subst h; decide
    rcases List.mem_cons.mp hm2 with h | h
    · subst h; decide
    · exact hstar c h
  have hnb : ∀ c ∈ '>' :: ' ' :: t, c ≠ '`' := by
    intro c hc
    rcases List.mem_cons.mp hc with h | hm2
    · subst h; decide
    rcases List.mem_cons.mp hm2 with h | h
    · subst h; decide
    · exact (tame_char (htch c h)).2.2.2.1
  have hmk : ∀ c ∈ '>' :: ' ' :: t, c ≠ '*' ∧ c ≠ '-' := by
    intro c hc
    rcases List.mem_cons.mp hc with h | hm2
    · subst h; exact ⟨by decide, by decide⟩
    rcases List.mem_cons.mp hm2 with h | h
    · subst h; exact ⟨by decide, by decide⟩
    · exact hmark c h
  unfold plainTransform
  rw [stripHeaders_id hh]
  rw [replDelim_id_no_open hnostar]
  rw [replDelim_id_no_open hnostar]
  rw [replDelim_id_no_open hnostar]
  rw [replDelim_id_no_open hnb]
  rw [normalizeBullets_id hmk]

/-- C9: the plainText output is the `SUMMARY: <summary>` banner line plus
an 80-character separator and a blank line, followed by the content with
block and inline markers stripped: heading marks removed leaving the plain
line, bullet prefixes (`* ` or `- `) normalized to a literal `- `,
bold/italic/backtick markers removed, and quote lines (which carry no
indentation styling in plain text) left as they are. -/
theorem c9_plaintext_rendition :
    (∀ content summary : String,
      saveAsText content summary
          = "SUMMARY: " ++ summary ++ "\n" ++ String.mk (List.replicate 80 '=')
            ++ "\n\n" ++ String.mk (plainTransform content.data)
        ∧ (String.mk (List.replicate 80 '=')).length = 80) ∧
    (∀ t : List Char, tameText t →
      (∀ k, 1 ≤ k → k ≤ 6 → plainTransform (List.replicate k '#' ++ ' ' :: t) = t)
      ∧ plainTransform ('*' :: '*' :: (t ++ ['*', '*'])) = t
      ∧ plainTransform ('*' :: (t ++ ['*'])) = t
      ∧ plainTransform ('`' :: (t ++ ['`'])) = t
      ∧ plainTransform ('*' :: ' ' :: t) = '-' :: ' ' :: t
      ∧ plainTransform ('-' :: ' ' :: t) = '-' :: ' ' :: t
      ∧ plainTransform ('>' :: ' ' :: t) = '>' :: ' ' :: t) := by
  constructor
  · intro content summary
    refine ⟨rfl, ?_⟩
    have : (String.mk (List.replicate 80 '=')).length = (List.replicate 80 '=').length := rfl
    rw [this, List.length_replicate]
  · intro t htame
    exact ⟨fun k h1 h6 => plainTransform_heading k h1 h6 t htame,
      plainTransform_bold t htame, plainTransform_italic t htame,
      plainTransform_code t htame, plainTransform_bullet_star t htame,
      plainTransform_bullet_dash t htame, plainTransform_quote t htame⟩

/-- Witness for C9 at concrete inputs: the banner formula, a level-2
heading, bold text, and a quote line. -/
theorem c9_plaintext_witness :
    (saveAsText "body" "sum"
        = "SUMMARY: " ++ "sum" ++ "\n" ++ String.mk (List.replicate 80 '=')
          ++ "\n\n" ++ String.mk (plainTransform "body".data)) ∧
      plainTransform (List.replicate 2 '#' ++ ' ' :: "Title".data) = "Title".data ∧
      plainTransform ('*' :: '*' :: ("bold text".data ++ ['*', '*'])) = "bold text".data ∧
      plainTransform ('>' :: ' ' :: "quoted".data) = '>' :: ' ' :: "quoted".data :=
  ⟨(c9_plaintext_rendition.1 "body" "sum").1,
    (c9_plaintext_rendition.2 "Title".data ⟨by decide, by decide, by decide⟩).1 2 (by decide) (by decide),
    (c9_plaintext_rendition.2 "bold text".data ⟨by decide, by decide, by decide⟩).2.1,
    (c9_plaintext_rendition.2 "quoted".data ⟨by decide, by decide, by decide⟩).2.2.2.2.2.2⟩

/-- Witness for C8 at a concrete input: the triple-star wrapper around
plain text parses as a single bold-italic span. -/
theorem c8_inline_precedence_witness :
    parseInlineFormatting ("***" ++ "q" ++ "***") = [Span.boldItalic "q"] :=
  c8_inline_precedence.2 "q" (by decide) (by decide)

end FileOpt
